import Mathlib

/-!
Verification of the Bellman-Ford single-source shortest-path module
(`src/graph/bellman_ford.rs`).

The Rust module represents a weighted directed graph as a
`BTreeMap<V, BTreeMap<V, E>>`.  We embed it with `V = Nat` and `E = Int`
(the tests instantiate `V, E` at integer / character types; `Int` models the
signed arithmetic demanded by the trait bounds).  A `BTreeMap` is embedded as
an association list iterated in list order; real `BTreeMap`s have distinct
keys, captured by the well-formedness predicate `WF`.

`bellman_ford` is translated statement by statement: `graph.len() - 1`
relaxation passes over all stored edges (each of which may return early with
`None` on a detected negative loop through the source), followed by one
detection pass (`checkPass`), returning `none` for "negative cycle detected"
and `some ans` otherwise.
-/

namespace BF

/-- Lookup in an association list (embeds `BTreeMap::get`). -/
def mapGet {α : Type} : List (Nat × α) → Nat → Option α
  | [], _ => none
  | (k, a) :: rest, q => if q = k then some a else mapGet rest q

/-- Insert-or-overwrite in an association list, keeping sorted position
(embeds `BTreeMap::insert`). -/
def mapInsert {α : Type} : List (Nat × α) → Nat → α → List (Nat × α)
  | [], q, b => [(q, b)]
  | (k, a) :: rest, q, b =>
    if q < k then (q, b) :: (k, a) :: rest
    else if q = k then (q, b) :: rest
    else (k, a) :: mapInsert rest q b

/-- The graph type `Graph<V, E> = BTreeMap<V, BTreeMap<V, E>>`. -/
abbrev Graph : Type := List (Nat × List (Nat × Int))

/-- The result type `BTreeMap<V, Option<(V, E)>>`: each reached node maps to
`none` (the source) or `some (predecessor, distance)`. -/
abbrev Ans : Type := List (Nat × Option (Nat × Int))

/-- Distance carried by a path record; the source's `none` record stands for
distance 0. -/
def distVal : Option (Nat × Int) → Int
  | none => 0
  | some (_, d) => d

/-- Value of the `dist_u` option read in the relaxation loop (`None` stands
for the source's implicit distance 0). -/
def optVal : Option Int → Int
  | none => 0
  | some d => d

/-- Weight of the stored edge `u -> v`, if present. -/
def edgeWeight (g : Graph) (u v : Nat) : Option Int :=
  (mapGet g u).bind (fun es => mapGet es v)

/-- One edge relaxation: the inner `match ans.get(v)` of the Rust relaxation
loop, for edge `(u, v)` of weight `w`, with `du` the `dist_u` value read for
`u`.  Returns `none` exactly where the Rust code does `return None`. -/
def relaxEdge (ans : Ans) (u : Nat) (du : Option Int) (v : Nat) (w : Int) :
    Option Ans :=
  match mapGet ans v with
  | some (some (_, dv)) =>
    if (match du with
        | some d0 => decide (d0 + w ≥ dv)
        | none => decide (w ≥ dv)) then
      some ans
    else
      some (mapInsert ans v (some (u, match du with
        | some d0 => d0 + w
        | none => w)))
  | some none =>
    match du with
    | some d0 =>
      if d0 ≥ -w then some ans
      else if w > w + w then none else some ans
    | none => if w > w + w then none else some ans
  | none =>
    some (mapInsert ans v (some (u, match du with
      | some d0 => d0 + w
      | none => w)))

/-- The inner `for (v, d) in edges` loop with the frozen `dist_u` value. -/
def relaxEdges (u : Nat) (du : Option Int) :
    Ans → List (Nat × Int) → Option Ans
  | ans, [] => some ans
  | ans, (v, w) :: rest =>
    match relaxEdge ans u du v w with
    | none => none
    | some ans2 => relaxEdges u du ans2 rest

/-- Processing of one graph entry `(u, edges)` inside a pass: read `dist_u`
(skipping `u` when it is unreached), then relax all its edges. -/
def relaxNode (ans : Ans) (u : Nat) (es : List (Nat × Int)) : Option Ans :=
  match mapGet ans u with
  | none => some ans
  | some none => relaxEdges u none ans es
  | some (some (_, d)) => relaxEdges u (some d) ans es

/-- One full relaxation pass `for (u, edges) in graph`. -/
def relaxPass : Ans → List (Nat × List (Nat × Int)) → Option Ans
  | ans, [] => some ans
  | ans, (u, es) :: rest =>
    match relaxNode ans u es with
    | none => none
    | some ans2 => relaxPass ans2 rest

/-- Runs `n` relaxation passes (the `for _ in 1..(graph.len())` loop). -/
def relaxPasses (g : Graph) : Nat → Ans → Option Ans
  | 0, ans => some ans
  | n + 1, ans =>
    match relaxPass ans g with
    | none => none
    | some ans2 => relaxPasses g n ans2

/-- The per-edge test of the final negative-cycle detection pass; `true`
means the Rust code does `return None` on this edge. -/
def checkEdge (ans : Ans) (u v : Nat) (w : Int) : Bool :=
  match mapGet ans u, mapGet ans v with
  | some none, some none => decide (w > w + w)
  | some none, some (some (_, dv)) => decide (w < dv)
  | some (some (_, du)), some none => decide (du < -w)
  | some (some (_, du)), some (some (_, dv)) => decide (du + w < dv)
  | _, _ => false

/-- The final detection pass over all stored edges. -/
def checkPass (ans : Ans) (g : Graph) : Bool :=
  g.any (fun p => p.2.any (fun q => checkEdge ans p.1 q.1 q.2))

/-- The embedded `bellman_ford` function. -/
def bellman_ford (g : Graph) (s : Nat) : Option Ans :=
  match relaxPasses g (g.length - 1) (mapInsert [] s none) with
  | none => none
  | some ans => if checkPass ans g then none else some ans

/-- The embedded `add_edge` helper: insert/overwrite edge `v1 -> v2` with
weight `c` and make sure `v2` exists as an outer key. -/
def add_edge (g : Graph) (v1 v2 : Nat) (c : Int) : Graph :=
  let g1 := mapInsert g v1 (mapInsert ((mapGet g v1).getD []) v2 c)
  match mapGet g1 v2 with
  | some _ => g1
  | none => mapInsert g1 v2 []

/-- Well-formedness of an embedded `BTreeMap` graph: outer keys are distinct
and so are the keys of every inner map. -/
def WF (g : Graph) : Prop :=
  (g.map Prod.fst).Nodup ∧ ∀ p ∈ g, (p.2.map Prod.fst).Nodup

instance (g : Graph) : Decidable (WF g) := by
  unfold WF
  infer_instance

/-- Holds (as `true`) iff the nonempty vertex sequence `l` follows stored
edges of `g`. -/
def isWalk (g : Graph) : List Nat → Bool
  | [] => false
  | [_] => true
  | u :: v :: rest => (edgeWeight g u v).isSome && isWalk g (v :: rest)

/-- Total weight of the vertex sequence `l` along stored edges. -/
def walkW (g : Graph) : List Nat → Int
  | u :: v :: rest => (edgeWeight g u v).getD 0 + walkW g (v :: rest)
  | _ => 0

/-- A walk in `g` from `s` to `t`. -/
def WalkFromTo (g : Graph) (s t : Nat) (l : List Nat) : Prop :=
  isWalk g l = true ∧ l.head? = some s ∧ l.getLast? = some t

instance (g : Graph) (s t : Nat) (l : List Nat) :
    Decidable (WalkFromTo g s t l) := by
  unfold WalkFromTo
  infer_instance

/-- Node `t` is reachable from `s` (the trivial walk `[s]` makes every node
reachable from itself). -/
def Reachable (g : Graph) (s t : Nat) : Prop :=
  ∃ l, WalkFromTo g s t l

/-- A directed cycle: a closed walk of at least one edge whose vertices are
pairwise distinct except for the repeated endpoint. -/
def IsCycle (g : Graph) (l : List Nat) : Prop :=
  isWalk g l = true ∧ l.head? = l.getLast? ∧ 2 ≤ l.length ∧ l.dropLast.Nodup

instance (g : Graph) (l : List Nat) : Decidable (IsCycle g l) := by
  unfold IsCycle
  infer_instance

/-- No directed cycle of strictly negative total weight is reachable from
`s`. -/
def NoNegCycle (g : Graph) (s : Nat) : Prop :=
  ¬ ∃ c x, IsCycle g c ∧ c.head? = some x ∧ Reachable g s x ∧ walkW g c < 0

/-! ### Association-list lemmas -/

theorem mapGet_mapInsert {α : Type} (l : List (Nat × α)) (q : Nat) (b : α)
    (x : Nat) :
    mapGet (mapInsert l q b) x = if x = q then some b else mapGet l x := by
  induction l with
  | nil =>
    simp only [mapInsert, mapGet]
  | cons h t ih =>
    obtain ⟨k, a⟩ := h
    by_cases hq : q < k
    · simp only [mapInsert, if_pos hq, mapGet]
    · by_cases hqe : q = k
      · subst hqe
        simp only [mapInsert, if_neg hq, if_pos rfl, mapGet]
        by_cases hx : x = q
        · simp [hx]
        · simp [hx]
      · simp only [mapInsert, if_neg hq, if_neg hqe, mapGet]
        by_cases hxk : x = k
        · have hxq : ¬ x = q := by
            intro hh
            exact hqe (hh ▸ hxk)
          have hkq : ¬ k = q := fun hh => hqe hh.symm
          simp [hxk, hxq, hkq]
        · simp only [if_neg hxk, ih]

theorem mapGet_mem {α : Type} {l : List (Nat × α)} {q : Nat} {a : α}
    (h : mapGet l q = some a) : (q, a) ∈ l := by
  induction l with
  | nil => simp [mapGet] at h
  | cons hd t ih =>
    obtain ⟨k, b⟩ := hd
    by_cases hq : q = k
    · subst hq
      simp only [mapGet, if_true, eq_self_iff_true, if_pos, Option.some.injEq] at h
      subst h
      exact List.mem_cons_self _ _
    · simp only [mapGet, if_neg hq] at h
      exact List.mem_cons_of_mem _ (ih h)

theorem mem_mapGet {α : Type} {l : List (Nat × α)} {q : Nat} {a : α}
    (hnd : (l.map Prod.fst).Nodup) (h : (q, a) ∈ l) : mapGet l q = some a := by
  induction l with
  | nil => simp at h
  | cons hd t ih =>
    obtain ⟨k, b⟩ := hd
    simp only [List.map_cons, List.nodup_cons] at hnd
    rcases List.mem_cons.mp h with h1 | h2
    · obtain ⟨hq, hb⟩ := Prod.mk.injEq .. ▸ h1
      simp [mapGet, hq, hb]
    · by_cases hq : q = k
      · exfalso
        apply hnd.1
        subst hq
        exact List.mem_map.mpr ⟨(q, a), h2, rfl⟩
      · simp only [mapGet, if_neg hq]
        exact ih hnd.2 h2

theorem mapGet_none_iff {α : Type} (l : List (Nat × α)) (q : Nat) :
    mapGet l q = none ↔ q ∉ l.map Prod.fst := by
  induction l with
  | nil => simp [mapGet]
  | cons hd t ih =>
    obtain ⟨k, b⟩ := hd
    by_cases hq : q = k
    · subst hq
      simp [mapGet]
    · simp [mapGet, hq, ih]

theorem mapGet_isSome_mem {α : Type} {l : List (Nat × α)} {q : Nat} {a : α}
    (h : mapGet l q = some a) : q ∈ l.map Prod.fst := by
  exact List.mem_map.mpr ⟨(q, a), mapGet_mem h, rfl⟩

/-- Keys of an embedded `BTreeMap` appear in strictly increasing order. -/
def SortedKeys {α : Type} (l : List (Nat × α)) : Prop :=
  l.Pairwise (fun p q => p.1 < q.1)

instance {α : Type} (l : List (Nat × α)) : Decidable (SortedKeys l) := by
  unfold SortedKeys
  infer_instance

theorem mem_mapInsert {α : Type} {l : List (Nat × α)} {q : Nat} {b : α}
    {p : Nat × α} (h : p ∈ mapInsert l q b) : p.1 = q ∨ p ∈ l := by
  induction l with
  | nil =>
    simp only [mapInsert, List.mem_singleton] at h
    subst h
    exact Or.inl rfl
  | cons hd t ih =>
    obtain ⟨k, a⟩ := hd
    by_cases hq : q < k
    · simp only [mapInsert, if_pos hq, List.mem_cons] at h
      rcases h with h | h | h
      · subst h; exact Or.inl rfl
      · subst h; exact Or.inr (List.mem_cons_self _ _)
      · exact Or.inr (List.mem_cons_of_mem _ h)
    · by_cases hqe : q = k
      · simp only [mapInsert, if_neg hq, if_pos hqe, List.mem_cons] at h
        rcases h with h | h
        · subst h; exact Or.inl rfl
        · exact Or.inr (List.mem_cons_of_mem _ h)
      · simp only [mapInsert, if_neg hq, if_neg hqe, List.mem_cons] at h
        rcases h with h | h
        · subst h; exact Or.inr (List.mem_cons_self _ _)
        · rcases ih h with h2 | h2
          · exact Or.inl h2
          · exact Or.inr (List.mem_cons_of_mem _ h2)

theorem SortedKeys_mapInsert {α : Type} {l : List (Nat × α)} {q : Nat} {b : α}
    (h : SortedKeys l) : SortedKeys (mapInsert l q b) := by
  induction l with
  | nil =>
    simp only [mapInsert, SortedKeys]
    exact List.pairwise_singleton _ _
  | cons hd t ih =>
    obtain ⟨k, a⟩ := hd
    rw [SortedKeys, List.pairwise_cons] at h
    by_cases hq : q < k
    · simp only [mapInsert, if_pos hq, SortedKeys]
      rw [List.pairwise_cons]
      constructor
      · intro p hp
        rcases List.mem_cons.mp hp with h1 | h1
        · subst h1; exact hq
        · exact lt_trans hq (h.1 p h1)
      · rw [List.pairwise_cons]
        exact h
    · by_cases hqe : q = k
      · simp only [mapInsert, if_neg hq, if_pos hqe, SortedKeys]
        rw [List.pairwise_cons]
        subst hqe
        exact h
      · simp only [mapInsert, if_neg hq, if_neg hqe, SortedKeys]
        rw [List.pairwise_cons]
        constructor
        · intro p hp
          rcases mem_mapInsert hp with h1 | h1
          · rw [h1]
            exact lt_of_le_of_ne (Nat.le_of_not_lt hq) (fun hh => hqe hh.symm)
          · exact h.1 p h1
        · exact ih h.2

theorem mapInsert_get_self {α : Type} {l : List (Nat × α)} {q : Nat} {b : α}
    (hs : SortedKeys l) (h : mapGet l q = some b) : mapInsert l q b = l := by
  induction l with
  | nil => simp [mapGet] at h
  | cons hd t ih =>
    obtain ⟨k, a⟩ := hd
    rw [SortedKeys, List.pairwise_cons] at hs
    by_cases hqe : q = k
    · subst hqe
      simp only [mapGet, if_true, eq_self_iff_true, if_pos, Option.some.injEq] at h
      subst h
      simp [mapInsert, lt_irrefl]
    · simp only [mapGet, if_neg hqe] at h
      have hmem : q ∈ t.map Prod.fst := mapGet_isSome_mem h
      obtain ⟨p, hp, hpq⟩ := List.mem_map.mp hmem
      have hkq : k < q := hpq ▸ hs.1 p hp
      have hnlt : ¬ q < k := Nat.not_lt.mpr (Nat.le_of_lt hkq)
      simp only [mapInsert, if_neg hnlt, if_neg hqe]
      rw [ih hs.2 h]

theorem mapInsert_mapInsert {α : Type} (l : List (Nat × α)) (q : Nat)
    (b b2 : α) : mapInsert (mapInsert l q b) q b2 = mapInsert l q b2 := by
  induction l with
  | nil => simp [mapInsert, lt_irrefl]
  | cons hd t ih =>
    obtain ⟨k, a⟩ := hd
    by_cases hq : q < k
    · simp [mapInsert, hq, lt_irrefl]
    · by_cases hqe : q = k
      · simp [mapInsert, hq, hqe, lt_irrefl]
      · simp only [mapInsert, if_neg hq, if_neg hqe, ih]

/-! ### Properties of `add_edge` -/

theorem add_edge_get_v1 (g : Graph) (v1 v2 : Nat) (c : Int) :
    mapGet (add_edge g v1 v2 c) v1 =
      some (mapInsert ((mapGet g v1).getD []) v2 c) := by
  unfold add_edge
  have h1 : mapGet (mapInsert g v1 (mapInsert ((mapGet g v1).getD []) v2 c)) v1
      = some (mapInsert ((mapGet g v1).getD []) v2 c) := by
    rw [mapGet_mapInsert]; simp
  cases hv2 : mapGet (mapInsert g v1 (mapInsert ((mapGet g v1).getD []) v2 c)) v2 with
  | none =>
    simp only [hv2]
    rw [mapGet_mapInsert]
    have hne : ¬ v1 = v2 := by
      intro hh
      subst hh
      rw [h1] at hv2
      exact Option.noConfusion hv2
    rw [if_neg hne]
    exact h1
  | some es =>
    simp only [hv2]
    exact h1

theorem add_edge_get_other (g : Graph) (v1 v2 x : Nat) (c : Int)
    (h1 : x ≠ v1) (h2 : x ≠ v2) :
    mapGet (add_edge g v1 v2 c) x = mapGet g x := by
  unfold add_edge
  have hg1 : mapGet (mapInsert g v1 (mapInsert ((mapGet g v1).getD []) v2 c)) x
      = mapGet g x := by
    rw [mapGet_mapInsert, if_neg h1]
  cases hv2 : mapGet (mapInsert g v1 (mapInsert ((mapGet g v1).getD []) v2 c)) v2 with
  | none =>
    simp only [hv2]
    rw [mapGet_mapInsert, if_neg h2]
    exact hg1
  | some es =>
    simp only [hv2]
    exact hg1

theorem add_edge_get_v2_absent (g : Graph) (v1 v2 : Nat) (c : Int)
    (hne : v2 ≠ v1) (h : mapGet g v2 = none) :
    mapGet (add_edge g v1 v2 c) v2 = some [] := by
  unfold add_edge
  have hv2 : mapGet (mapInsert g v1 (mapInsert ((mapGet g v1).getD []) v2 c)) v2
      = none := by
    rw [mapGet_mapInsert, if_neg hne]
    exact h
  simp only [hv2]
  rw [mapGet_mapInsert]
  simp

theorem add_edge_get_v2_present (g : Graph) (v1 v2 : Nat) (c : Int)
    {es : List (Nat × Int)} (hne : v2 ≠ v1) (h : mapGet g v2 = some es) :
    mapGet (add_edge g v1 v2 c) v2 = some es := by
  unfold add_edge
  have hv2 : mapGet (mapInsert g v1 (mapInsert ((mapGet g v1).getD []) v2 c)) v2
      = some es := by
    rw [mapGet_mapInsert, if_neg hne]
    exact h
  simp only [hv2]

theorem add_edge_edgeWeight (g : Graph) (v1 v2 : Nat) (c : Int) :
    edgeWeight (add_edge g v1 v2 c) v1 v2 = some c := by
  rw [edgeWeight, add_edge_get_v1]
  simp only [Option.some_bind]
  rw [mapGet_mapInsert]
  simp

theorem add_edge_edgeWeight_other (g : Graph) (v1 v2 y : Nat) (c : Int)
    (hy : y ≠ v2) :
    edgeWeight (add_edge g v1 v2 c) v1 y = edgeWeight g v1 y := by
  rw [edgeWeight, add_edge_get_v1]
  simp only [Option.some_bind]
  rw [mapGet_mapInsert, if_neg hy]
  rw [edgeWeight]
  cases h : mapGet g v1 with
  | none =>
    simp [h, mapGet]
  | some es =>
    simp [h]

theorem add_edge_sorted (g : Graph) (v1 v2 : Nat) (c : Int)
    (hs : SortedKeys g) : SortedKeys (add_edge g v1 v2 c) := by
  unfold add_edge
  have h1 : SortedKeys (mapInsert g v1 (mapInsert ((mapGet g v1).getD []) v2 c)) :=
    SortedKeys_mapInsert hs
  cases hv2 : mapGet (mapInsert g v1 (mapInsert ((mapGet g v1).getD []) v2 c)) v2 with
  | none =>
    simp only [hv2]
    exact SortedKeys_mapInsert h1
  | some es =>
    simp only [hv2]
    exact h1

theorem add_edge_get_v2_some (g : Graph) (v1 v2 : Nat) (c : Int) :
    ∃ es, mapGet (add_edge g v1 v2 c) v2 = some es := by
  by_cases hne : v2 = v1
  · subst hne
    exact ⟨_, add_edge_get_v1 g v2 v2 c⟩
  · cases hv2 : mapGet g v2 with
    | none => exact ⟨[], add_edge_get_v2_absent g v1 v2 c hne hv2⟩
    | some es => exact ⟨es, add_edge_get_v2_present g v1 v2 c hne hv2⟩

theorem add_edge_idem (g : Graph) (v1 v2 : Nat) (c : Int)
    (hs : SortedKeys g) :
    add_edge (add_edge g v1 v2 c) v1 v2 c = add_edge g v1 v2 c := by
  have hv1 : mapGet (add_edge g v1 v2 c) v1 =
      some (mapInsert ((mapGet g v1).getD []) v2 c) := add_edge_get_v1 g v1 v2 c
  have hsr : SortedKeys (add_edge g v1 v2 c) := add_edge_sorted g v1 v2 c hs
  have hinner : mapInsert ((mapGet (add_edge g v1 v2 c) v1).getD []) v2 c =
      mapInsert ((mapGet g v1).getD []) v2 c := by
    rw [hv1]
    simp only [Option.getD_some]
    exact mapInsert_mapInsert _ v2 c c
  have hg1 : mapInsert (add_edge g v1 v2 c) v1
      (mapInsert ((mapGet (add_edge g v1 v2 c) v1).getD []) v2 c) =
      add_edge g v1 v2 c := by
    rw [hinner]
    exact mapInsert_get_self hsr hv1
  obtain ⟨es2, hv2⟩ := add_edge_get_v2_some g v1 v2 c
  show (match mapGet (mapInsert (add_edge g v1 v2 c) v1
      (mapInsert ((mapGet (add_edge g v1 v2 c) v1).getD []) v2 c)) v2 with
    | some _ => mapInsert (add_edge g v1 v2 c) v1
        (mapInsert ((mapGet (add_edge g v1 v2 c) v1).getD []) v2 c)
    | none => mapInsert (mapInsert (add_edge g v1 v2 c) v1
        (mapInsert ((mapGet (add_edge g v1 v2 c) v1).getD []) v2 c)) v2 []) =
    add_edge g v1 v2 c
  rw [hg1, hv2]

/-- C7: `add_edge graph v1 v2 c` makes the directed edge `v1 -> v2` present
with weight `c` (overwriting any prior weight, so repeated insertion with the
same weight is idempotent), ensures both `v1` and `v2` exist as outer-mapping
keys afterwards (`v2` with an empty out-edge mapping if it was absent, its old
mapping if present), and leaves every other vertex entry and every other edge
of `v1` unchanged. -/
theorem add_edge_spec (g : Graph) (v1 v2 : Nat) (c : Int) :
    edgeWeight (add_edge g v1 v2 c) v1 v2 = some c ∧
    (∃ es, mapGet (add_edge g v1 v2 c) v1 = some es) ∧
    (∃ es, mapGet (add_edge g v1 v2 c) v2 = some es) ∧
    (v2 ≠ v1 → mapGet g v2 = none →
      mapGet (add_edge g v1 v2 c) v2 = some []) ∧
    (∀ es, v2 ≠ v1 → mapGet g v2 = some es →
      mapGet (add_edge g v1 v2 c) v2 = some es) ∧
    (∀ x, x ≠ v1 → x ≠ v2 → mapGet (add_edge g v1 v2 c) x = mapGet g x) ∧
    (∀ y, y ≠ v2 →
      edgeWeight (add_edge g v1 v2 c) v1 y = edgeWeight g v1 y) ∧
    (SortedKeys g → add_edge (add_edge g v1 v2 c) v1 v2 c = add_edge g v1 v2 c) := by
  refine ⟨add_edge_edgeWeight g v1 v2 c, ⟨_, add_edge_get_v1 g v1 v2 c⟩,
    add_edge_get_v2_some g v1 v2 c, ?_, ?_, ?_, ?_, ?_⟩
  · exact add_edge_get_v2_absent g v1 v2 c
  · intro es hne h
    exact add_edge_get_v2_present g v1 v2 c hne h
  · intro x h1 h2
    exact add_edge_get_other g v1 v2 x c h1 h2
  · intro y hy
    exact add_edge_edgeWeight_other g v1 v2 y c hy
  · exact add_edge_idem g v1 v2 c

/-- Witness for C7 on a concrete graph: the edge `0 -> 1` is overwritten to
weight 5, the absent destination 3 of a second insertion is materialised
with an empty mapping, unrelated vertex 2 is untouched, and re-inserting the
same edge is the identity. -/
theorem add_edge_spec_witness :
    edgeWeight (add_edge [(0, [(1, 7)]), (2, [])] 0 1 5) 0 1 = some 5 ∧
    mapGet (add_edge [(0, [(1, 7)]), (2, [])] 0 3 4) 3 = some [] ∧
    mapGet (add_edge [(0, [(1, 7)]), (2, [])] 0 1 5) 2 =
      mapGet [(0, [(1, 7)]), (2, [])] 2 ∧
    add_edge (add_edge [(0, [(1, 7)]), (2, [])] 0 1 5) 0 1 5 =
      add_edge [(0, [(1, 7)]), (2, [])] 0 1 5 := by
  refine ⟨(add_edge_spec [(0, [(1, 7)]), (2, [])] 0 1 5).1, ?_, ?_, ?_⟩
  · exact (add_edge_spec [(0, [(1, 7)]), (2, [])] 0 3 4).2.2.2.1
      (by decide) (by decide)
  · exact (add_edge_spec [(0, [(1, 7)]), (2, [])] 0 1 5).2.2.2.2.2.1 2
      (by decide) (by decide)
  · exact (add_edge_spec [(0, [(1, 7)]), (2, [])] 0 1 5).2.2.2.2.2.2.2
      (by decide)

/-- C6: within a relaxation pass, for an edge `(u, v)` of weight `w` where
`u` has a known finite distance `d0`: an already-reached non-source `v` is
replaced with record `(u, d0 + w)` exactly when `d0 + w` is strictly smaller
than the current distance `dv` (so on a tie nothing changes and the first
discovered candidate survives), and an unreached `v` is always given the
record `(u, d0 + w)`. -/
theorem relax_rule (ans : Ans) (u v : Nat) (d0 w : Int) :
    (∀ q dv, mapGet ans v = some (some (q, dv)) →
      relaxEdge ans u (some d0) v w =
        some (if d0 + w < dv then mapInsert ans v (some (u, d0 + w)) else ans)) ∧
    (mapGet ans v = none →
      relaxEdge ans u (some d0) v w =
        some (mapInsert ans v (some (u, d0 + w)))) := by
  constructor
  · intro q dv h
    by_cases hlt : d0 + w < dv
    · simp [relaxEdge, h, hlt, not_le_of_lt hlt]
    · simp [relaxEdge, h, hlt, not_lt.mp hlt]
  · intro h
    simp [relaxEdge, h]

/-- Witness for C6 on concrete states: a strictly better candidate replaces
the record, an equal candidate leaves the state unchanged, and an unreached
node is inserted. -/
theorem relax_rule_witness :
    relaxEdge [(1, some (0, 9))] 2 (some 3) 1 4 =
      some [(1, some (2, 7))] ∧
    relaxEdge [(1, some (0, 9))] 2 (some 5) 1 4 =
      some [(1, some (0, 9))] ∧
    relaxEdge [(1, some (0, 9))] 2 (some 3) 4 4 =
      some [(1, some (0, 9)), (4, some (2, 7))] := by
  refine ⟨?_, ?_, ?_⟩
  · have h := (relax_rule [(1, some (0, 9))] 2 1 3 4).1 0 9 (by decide)
    rw [h]
    decide
  · have h := (relax_rule [(1, some (0, 9))] 2 1 5 4).1 0 9 (by decide)
    rw [h]
    decide
  · have h := (relax_rule [(1, some (0, 9))] 2 4 3 4).2 (by decide)
    rw [h]
    decide

/-- C9: `bellman_ford` is a deterministic pure function of its inputs — two
invocations on the same graph and source yield the identical result (the
embedding is a pure function of the borrowed graph value, which it cannot
mutate). -/
theorem bellman_ford_deterministic (g1 g2 : Graph) (s1 s2 : Nat)
    (hg : g1 = g2) (hs : s1 = s2) :
    bellman_ford g1 s1 = bellman_ford g2 s2 := by
  rw [hg, hs]

/-- Witness for C9 at a concrete graph and source. -/
theorem bellman_ford_deterministic_witness :
    bellman_ford [(0, [(1, 2)]), (1, [])] 0 =
      bellman_ford [(0, [(1, 2)]), (1, [])] 0 :=
  bellman_ford_deterministic [(0, [(1, 2)]), (1, [])]
    [(0, [(1, 2)]), (1, [])] 0 0 rfl rfl

/-! ### Walk lemmas -/

theorem edgeWeight_inv {g : Graph} {u v : Nat} {w : Int}
    (h : edgeWeight g u v = some w) :
    ∃ es, mapGet g u = some es ∧ mapGet es v = some w := by
  rw [edgeWeight] at h
  cases hg : mapGet g u with
  | none => rw [hg] at h; simp at h
  | some es =>
    rw [hg] at h
    simp only [Option.some_bind] at h
    exact ⟨es, rfl, h⟩

theorem edgeWeight_mk {g : Graph} {u v : Nat} {w : Int}
    {es : List (Nat × Int)} (h1 : mapGet g u = some es)
    (h2 : mapGet es v = some w) : edgeWeight g u v = some w := by
  rw [edgeWeight, h1, Option.some_bind, h2]

theorem isWalk_ne_nil {g : Graph} {l : List Nat} (h : isWalk g l = true) :
    l ≠ [] := by
  intro hl
  subst hl
  simp [isWalk] at h

theorem head?_append_cons {α : Type} (l1 : List α) (y : α) (l2 l3 : List α) :
    (l1 ++ y :: l2).head? = (l1 ++ y :: l3).head? := by
  cases l1 <;> simp

theorem getLast?_concat_eq {α : Type} (l : List α) (a : α) :
    (l ++ [a]).getLast? = some a := by
  rw [List.getLast?_append_of_ne_nil l (by simp)]
  rfl

theorem isWalk_append (g : Graph) (y : Nat) (l2 l1 : List Nat) :
    isWalk g (l1 ++ y :: l2) = true ↔
      isWalk g (l1 ++ [y]) = true ∧ isWalk g (y :: l2) = true := by
  induction l1 with
  | nil =>
    simp only [List.nil_append]
    have h1 : isWalk g [y] = true := rfl
    tauto
  | cons a l1 ih =>
    cases l1 with
    | nil =>
      simp only [List.nil_append, List.cons_append]
      rw [show isWalk g (a :: y :: l2) =
        ((edgeWeight g a y).isSome && isWalk g (y :: l2)) from rfl]
      rw [show isWalk g [a, y] =
        ((edgeWeight g a y).isSome && isWalk g [y]) from rfl]
      rw [show isWalk g [y] = true from rfl]
      simp only [Bool.and_eq_true, Bool.and_true]
      try tauto
    | cons b l1 =>
      simp only [List.cons_append] at ih ⊢
      rw [show isWalk g (a :: b :: (l1 ++ y :: l2)) =
        ((edgeWeight g a b).isSome && isWalk g (b :: (l1 ++ y :: l2))) from rfl]
      rw [show isWalk g (a :: b :: (l1 ++ [y])) =
        ((edgeWeight g a b).isSome && isWalk g (b :: (l1 ++ [y]))) from rfl]
      simp only [Bool.and_eq_true]
      tauto

theorem walkW_append (g : Graph) (y : Nat) (l2 l1 : List Nat) :
    walkW g (l1 ++ y :: l2) = walkW g (l1 ++ [y]) + walkW g (y :: l2) := by
  induction l1 with
  | nil =>
    simp only [List.nil_append]
    rw [show walkW g [y] = 0 from rfl]
    ring
  | cons a l1 ih =>
    cases l1 with
    | nil =>
      simp only [List.nil_append, List.cons_append]
      rw [show walkW g (a :: y :: l2) =
        (edgeWeight g a y).getD 0 + walkW g (y :: l2) from rfl]
      rw [show walkW g [a, y] = (edgeWeight g a y).getD 0 + walkW g [y] from rfl]
      rw [show walkW g [y] = 0 from rfl]
      ring
    | cons b l1 =>
      simp only [List.cons_append] at ih ⊢
      rw [show walkW g (a :: b :: (l1 ++ y :: l2)) =
        (edgeWeight g a b).getD 0 + walkW g (b :: (l1 ++ y :: l2)) from rfl]
      rw [show walkW g (a :: b :: (l1 ++ [y])) =
        (edgeWeight g a b).getD 0 + walkW g (b :: (l1 ++ [y])) from rfl]
      rw [ih]
      ring

theorem getLast?_concat_inv {l : List Nat} {x : Nat}
    (h : l.getLast? = some x) : ∃ l2, l = l2 ++ [x] := by
  rcases l.eq_nil_or_concat with h1 | ⟨l2, y, rfl⟩
  · subst h1; simp at h
  · rw [List.concat_eq_append] at *
    simp at h
    subst h
    exact ⟨l2, rfl⟩

theorem walk_extend {g : Graph} {s u v : Nat} {w : Int} {l : List Nat}
    (hw : WalkFromTo g s u l) (he : edgeWeight g u v = some w) :
    WalkFromTo g s v (l ++ [v]) ∧ walkW g (l ++ [v]) = walkW g l + w := by
  obtain ⟨hwalk, hhead, hlast⟩ := hw
  obtain ⟨l1, rfl⟩ := getLast?_concat_inv hlast
  have hisw : isWalk g ((l1 ++ [u]) ++ [v]) = true := by
    rw [List.append_assoc]
    show isWalk g (l1 ++ u :: [v]) = true
    rw [isWalk_append]
    refine ⟨hwalk, ?_⟩
    rw [show isWalk g [u, v] = ((edgeWeight g u v).isSome && isWalk g [v]) from rfl]
    rw [he]
    rfl
  refine ⟨⟨hisw, ?_, by simp⟩, ?_⟩
  · rw [show (l1 ++ [u]) ++ [v] = l1 ++ u :: [v] by simp, ← hhead]
    exact head?_append_cons l1 u [v] []
  · rw [List.append_assoc]
    show walkW g (l1 ++ u :: [v]) = _
    rw [walkW_append]
    rw [show walkW g [u, v] = (edgeWeight g u v).getD 0 + walkW g [v] from rfl]
    rw [he]
    rw [show walkW g [v] = 0 from rfl]
    rw [show (Option.getD (some w) 0 : Int) = w from rfl]
    ring

theorem walk_trans {g : Graph} {s x y : Nat} {l1 l2 : List Nat}
    (h1 : WalkFromTo g s x l1) (h2 : WalkFromTo g x y l2) :
    ∃ l, WalkFromTo g s y l ∧ walkW g l = walkW g l1 + walkW g l2 := by
  obtain ⟨hw1, hh1, hl1⟩ := h1
  obtain ⟨hw2, hh2, hl2⟩ := h2
  obtain ⟨l1p, rfl⟩ := getLast?_concat_inv hl1
  cases l2 with
  | nil => simp at hh2
  | cons x2 t =>
    have hx2 : x2 = x := by
      simp only [List.head?] at hh2
      exact (Option.some.injEq .. ▸ hh2 :)
    subst hx2
    refine ⟨l1p ++ x2 :: t, ⟨?_, ?_, ?_⟩, ?_⟩
    · rw [isWalk_append]
      exact ⟨hw1, hw2⟩
    · rw [← hh1]
      exact head?_append_cons l1p x2 t []
    · rw [List.getLast?_append_of_ne_nil l1p (by simp)]
      exact hl2
    · rw [walkW_append]

theorem walk_interior_key {g : Graph} {l : List Nat}
    (h : isWalk g l = true) {x : Nat} (hx : x ∈ l.dropLast) :
    ∃ es, mapGet g x = some es := by
  induction l with
  | nil => simp at hx
  | cons a t ih =>
    cases t with
    | nil => simp at hx
    | cons b t2 =>
      rw [show isWalk g (a :: b :: t2) =
        ((edgeWeight g a b).isSome && isWalk g (b :: t2)) from rfl] at h
      rw [Bool.and_eq_true] at h
      rw [show (a :: b :: t2).dropLast = a :: (b :: t2).dropLast by simp] at hx
      rcases List.mem_cons.mp hx with h1 | h1
      · subst h1
        obtain ⟨w, hw⟩ := Option.isSome_iff_exists.mp h.1
        obtain ⟨es, hes, _⟩ := edgeWeight_inv hw
        exact ⟨es, hes⟩
      · exact ih h.2 h1

theorem walk_to_mem {g : Graph} {l : List Nat} (h : isWalk g l = true)
    {x a : Nat} (hx : x ∈ l) (ha : l.head? = some a) :
    ∃ p, WalkFromTo g a x p := by
  obtain ⟨pre, suf, rfl⟩ := List.append_of_mem hx
  refine ⟨pre ++ [x], ⟨?_, ?_, by simp⟩⟩
  · exact ((isWalk_append g x suf pre).mp h).1
  · rw [← ha]
    exact head?_append_cons pre x [] suf

theorem reach_of_mem_walk {g : Graph} {s : Nat} {l : List Nat}
    (h : isWalk g l = true) {x a : Nat} (hx : x ∈ l) (ha : l.head? = some a)
    (hr : Reachable g s a) : Reachable g s x := by
  obtain ⟨p, hp⟩ := walk_to_mem h hx ha
  obtain ⟨la, hla⟩ := hr
  obtain ⟨l2, hl2, _⟩ := walk_trans hla hp
  exact ⟨l2, hl2⟩

/-! ### State invariants of the relaxation loop -/

/-- Node `x` has a record in `ans` whose distance is at most `X`. -/
def dBound (ans : Ans) (x : Nat) (X : Int) : Prop :=
  ∃ r, mapGet ans x = some r ∧ distVal r ≤ X

/-- Between two states: records never disappear and distances never
increase. -/
def Mono (a b : Ans) : Prop :=
  ∀ x r, mapGet a x = some r → ∃ r2, mapGet b x = some r2 ∧ distVal r2 ≤ distVal r

/-- The state invariant: the source is recorded as `none` and is the only
such node; every other record `(p, d)` is witnessed by a stored edge
`p -> v` with `d(p) + w ≤ d` and by an actual walk from the source of
weight exactly `d`. -/
def Inv (g : Graph) (s : Nat) (ans : Ans) : Prop :=
  mapGet ans s = some none ∧
  (∀ x, mapGet ans x = some none → x = s) ∧
  (∀ v p d, mapGet ans v = some (some (p, d)) →
    (∃ w rp, edgeWeight g p v = some w ∧ mapGet ans p = some rp ∧
      distVal rp + w ≤ d) ∧
    (∃ l, WalkFromTo g s v l ∧ walkW g l = d))

/-- Facts available about `(u, dist_u)` in the body of the inner loop:
`u` is recorded with distance at most the frozen `dist_u` value, that value
is realised by a walk from the source, and `dist_u = None` only for the
source itself. -/
def ReadFacts (g : Graph) (s : Nat) (ans : Ans) (u : Nat)
    (du : Option Int) : Prop :=
  (∃ r, mapGet ans u = some r ∧ distVal r ≤ optVal du) ∧
  (∃ l, WalkFromTo g s u l ∧ walkW g l = optVal du) ∧
  (du = none → u = s)

theorem mono_refl (ans : Ans) : Mono ans ans :=
  fun _ r h => ⟨r, h, le_refl _⟩

theorem mono_trans {a b c : Ans} (h1 : Mono a b) (h2 : Mono b c) :
    Mono a c := by
  intro x r h
  obtain ⟨r2, hr2, hle⟩ := h1 x r h
  obtain ⟨r3, hr3, hle2⟩ := h2 x r2 hr2
  exact ⟨r3, hr3, le_trans hle2 hle⟩

theorem mono_dBound {a b : Ans} {x : Nat} {X : Int} (h : Mono a b)
    (hd : dBound a x X) : dBound b x X := by
  obtain ⟨r, hr, hle⟩ := hd
  obtain ⟨r2, hr2, hle2⟩ := h x r hr
  exact ⟨r2, hr2, le_trans hle2 hle⟩

theorem mono_readFacts {g : Graph} {s : Nat} {a b : Ans} {u : Nat}
    {du : Option Int} (h : Mono a b) (hrf : ReadFacts g s a u du) :
    ReadFacts g s b u du := by
  obtain ⟨⟨r, hr, hle⟩, hwalk, hnone⟩ := hrf
  obtain ⟨r2, hr2, hle2⟩ := h u r hr
  exact ⟨⟨r2, hr2, le_trans hle2 hle⟩, hwalk, hnone⟩

/-- If `relaxEdge` hits the early `return None`, then the target record was
the source's and the candidate distance through this edge is negative. -/
theorem relaxEdge_none_inv {ans : Ans} {u : Nat} {du : Option Int} {v : Nat}
    {w : Int} (h : relaxEdge ans u du v w = none) :
    mapGet ans v = some none ∧ optVal du + w < 0 := by
  cases hv : mapGet ans v with
  | none =>
    cases du <;> simp [relaxEdge, hv] at h
  | some r =>
    cases r with
    | some p =>
      obtain ⟨q, dv⟩ := p
      cases du with
      | none =>
        by_cases hge : w ≥ dv <;> simp [relaxEdge, hv, hge] at h
      | some d0 =>
        by_cases hge : d0 + w ≥ dv <;> simp [relaxEdge, hv, hge] at h
    | none =>
      refine ⟨rfl, ?_⟩
      cases du with
      | none =>
        by_cases hw : w > w + w
        · simp only [optVal]
          linarith
        · simp [relaxEdge, hv, hw] at h
      | some d0 =>
        by_cases h1 : d0 ≥ -w
        · simp [relaxEdge, hv, h1] at h
        · simp only [optVal]
          push_neg at h1
          linarith

/-- Inserting the candidate record `(u, optVal du + w)` at a non-source
node `v` that is either unreached or strictly improved preserves the
invariant and only lowers distances. -/
theorem inv_insert {g : Graph} {s : Nat} {ans : Ans} {u v : Nat}
    {du : Option Int} {w D : Int}
    (hInv : Inv g s ans) (hRF : ReadFacts g s ans u du)
    (he : edgeWeight g u v = some w) (hD : D = optVal du + w)
    (hlt : ∀ q dv, mapGet ans v = some (some (q, dv)) → optVal du + w < dv)
    (hns : mapGet ans v ≠ some none) :
    Inv g s (mapInsert ans v (some (u, D))) ∧
    Mono ans (mapInsert ans v (some (u, D))) := by
  subst hD
  obtain ⟨hsrc, honly, hrec⟩ := hInv
  obtain ⟨⟨ru, hru, hrule⟩, ⟨lu, hlu, hluw⟩, hdns⟩ := hRF
  have hvs : ¬ v = s := by
    intro hh
    subst hh
    exact hns hsrc
  have hmono : Mono ans (mapInsert ans v (some (u, optVal du + w))) := by
    intro x r h
    by_cases hx : x = v
    · subst hx
      cases r with
      | none => exact absurd h hns
      | some p =>
        obtain ⟨q, dv⟩ := p
        refine ⟨some (u, optVal du + w), ?_, ?_⟩
        · rw [mapGet_mapInsert, if_pos rfl]
        · exact le_of_lt (hlt q dv h)
    · refine ⟨r, ?_, le_refl _⟩
      rw [mapGet_mapInsert, if_neg hx]
      exact h
  refine ⟨⟨?_, ?_, ?_⟩, hmono⟩
  · rw [mapGet_mapInsert, if_neg (show ¬ s = v from fun hh => hvs hh.symm)]
    exact hsrc
  · intro x hx
    rw [mapGet_mapInsert] at hx
    by_cases hxv : x = v
    · rw [if_pos hxv] at hx
      exact absurd hx (by simp)
    · rw [if_neg hxv] at hx
      exact honly x hx
  · intro v2 p d h2
    rw [mapGet_mapInsert] at h2
    by_cases hv2 : v2 = v
    · rw [if_pos hv2] at h2
      subst hv2
      simp only [Option.some.injEq, Prod.mk.injEq] at h2
      obtain ⟨hp, hd⟩ := h2
      subst hp
      subst hd
      constructor
      · by_cases huv : u = v2
        · subst huv
          refine ⟨w, some (u, optVal du + w), he, ?_, ?_⟩
          · rw [mapGet_mapInsert, if_pos rfl]
          · have hwneg : w < 0 := by
              cases ru with
              | none => exact absurd hru hns
              | some pq =>
                obtain ⟨q, dv⟩ := pq
                have h3 := hlt q dv hru
                have h4 : distVal (some (q, dv)) = dv := rfl
                rw [h4] at hrule
                linarith
            show optVal du + w + w ≤ optVal du + w
            linarith
        · refine ⟨w, ru, he, ?_, ?_⟩
          · rw [mapGet_mapInsert, if_neg huv]
            exact hru
          · show distVal ru + w ≤ optVal du + w
            linarith
      · obtain ⟨hwext, hwW⟩ := walk_extend hlu he
        exact ⟨lu ++ [v2], hwext, by rw [hwW, hluw]⟩
    · rw [if_neg hv2] at h2
      obtain ⟨⟨w2, rp, hew, hrp, hler⟩, hwalk⟩ := hrec v2 p d h2
      constructor
      · by_cases hpv : p = v
        · subst hpv
          refine ⟨w2, some (u, optVal du + w), hew, ?_, ?_⟩
          · rw [mapGet_mapInsert, if_pos rfl]
          · cases rp with
            | none => exact absurd hrp hns
            | some pq =>
              obtain ⟨q, dv⟩ := pq
              have h3 := hlt q dv hrp
              have h4 : distVal (some (q, dv)) = dv := rfl
              rw [h4] at hler
              show optVal du + w + w2 ≤ d
              linarith
        · refine ⟨w2, rp, hew, ?_, hler⟩
          rw [mapGet_mapInsert, if_neg hpv]
          exact hrp
      · exact hwalk

theorem relaxEdge_at_unreached_none {ans : Ans} {u v : Nat} {w : Int}
    (hv : mapGet ans v = none) :
    relaxEdge ans u none v w = some (mapInsert ans v (some (u, w))) := by
  simp [relaxEdge, hv]

theorem relaxEdge_at_unreached_some {ans : Ans} {u v : Nat} {d0 w : Int}
    (hv : mapGet ans v = none) :
    relaxEdge ans u (some d0) v w =
      some (mapInsert ans v (some (u, d0 + w))) := by
  simp [relaxEdge, hv]

theorem relaxEdge_skip_none {ans : Ans} {u v q : Nat} {dv w : Int}
    (hv : mapGet ans v = some (some (q, dv))) (hge : w ≥ dv) :
    relaxEdge ans u none v w = some ans := by
  simp [relaxEdge, hv, hge]

theorem relaxEdge_upd_none {ans : Ans} {u v q : Nat} {dv w : Int}
    (hv : mapGet ans v = some (some (q, dv))) (hge : ¬ w ≥ dv) :
    relaxEdge ans u none v w = some (mapInsert ans v (some (u, w))) := by
  simp [relaxEdge, hv, hge]

theorem relaxEdge_skip_some {ans : Ans} {u v q : Nat} {d0 dv w : Int}
    (hv : mapGet ans v = some (some (q, dv))) (hge : d0 + w ≥ dv) :
    relaxEdge ans u (some d0) v w = some ans := by
  simp [relaxEdge, hv, hge]

theorem relaxEdge_upd_some {ans : Ans} {u v q : Nat} {d0 dv w : Int}
    (hv : mapGet ans v = some (some (q, dv))) (hge : ¬ d0 + w ≥ dv) :
    relaxEdge ans u (some d0) v w =
      some (mapInsert ans v (some (u, d0 + w))) := by
  simp [relaxEdge, hv, hge]

theorem relaxEdge_at_source_some {ans : Ans} {u v : Nat} {du : Option Int}
    {w : Int} {ans2 : Ans} (hv : mapGet ans v = some none)
    (h : relaxEdge ans u du v w = some ans2) : ans2 = ans := by
  cases du with
  | none =>
    by_cases hw : w > w + w <;> simp [relaxEdge, hv, hw] at h <;> exact h.symm
  | some d0 =>
    by_cases h1 : d0 ≥ -w
    · simp [relaxEdge, hv, h1] at h
      exact h.symm
    · by_cases hw : w > w + w <;> simp [relaxEdge, hv, h1, hw] at h <;>
        exact h.symm

/-- A successful `relaxEdge` step preserves the invariant and only lowers
distances. -/
theorem relaxEdge_step {g : Graph} {s : Nat} {ans : Ans} {u : Nat}
    {du : Option Int} {v : Nat} {w : Int} {ans2 : Ans}
    (hInv : Inv g s ans) (hRF : ReadFacts g s ans u du)
    (he : edgeWeight g u v = some w)
    (h : relaxEdge ans u du v w = some ans2) :
    Inv g s ans2 ∧ Mono ans ans2 := by
  cases hv : mapGet ans v with
  | none =>
    have hlt : ∀ q dv, mapGet ans v = some (some (q, dv)) →
        optVal du + w < dv := by
      intro q dv hq
      rw [hv] at hq
      exact absurd hq (by simp)
    have hns : mapGet ans v ≠ some none := by
      rw [hv]
      simp
    cases du with
    | none =>
      rw [relaxEdge_at_unreached_none hv] at h
      simp only [Option.some.injEq] at h
      subst h
      exact inv_insert hInv hRF he (by simp [optVal]) hlt hns
    | some d0 =>
      rw [relaxEdge_at_unreached_some hv] at h
      simp only [Option.some.injEq] at h
      subst h
      exact inv_insert hInv hRF he (by simp [optVal]) hlt hns
  | some r =>
    cases r with
    | none =>
      obtain rfl := relaxEdge_at_source_some hv h
      exact ⟨hInv, mono_refl _⟩
    | some p =>
      obtain ⟨q, dv⟩ := p
      have hns : mapGet ans v ≠ some none := by
        rw [hv]
        simp
      cases du with
      | none =>
        by_cases hge : w ≥ dv
        · rw [relaxEdge_skip_none hv hge] at h
          simp only [Option.some.injEq] at h
          subst h
          exact ⟨hInv, mono_refl ans⟩
        · rw [relaxEdge_upd_none hv hge] at h
          simp only [Option.some.injEq] at h
          subst h
          refine inv_insert hInv hRF he (by simp [optVal]) ?_ hns
          intro q2 dv2 hq
          rw [hv] at hq
          simp only [Option.some.injEq, Prod.mk.injEq] at hq
          obtain ⟨_, rfl⟩ := hq
          simp only [optVal]
          push_neg at hge
          linarith
      | some d0 =>
        by_cases hge : d0 + w ≥ dv
        · rw [relaxEdge_skip_some hv hge] at h
          simp only [Option.some.injEq] at h
          subst h
          exact ⟨hInv, mono_refl ans⟩
        · rw [relaxEdge_upd_some hv hge] at h
          simp only [Option.some.injEq] at h
          subst h
          refine inv_insert hInv hRF he (by simp [optVal]) ?_ hns
          intro q2 dv2 hq
          rw [hv] at hq
          simp only [Option.some.injEq, Prod.mk.injEq] at hq
          obtain ⟨_, rfl⟩ := hq
          simp only [optVal]
          push_neg at hge
          linarith

/-- A successful `relaxEdge` step on a non-source target leaves `v` with a
record bounded by the candidate distance. -/
theorem relaxEdge_dBound {ans : Ans} {u : Nat} {du : Option Int} {v : Nat}
    {w : Int} {ans2 : Ans} (h : relaxEdge ans u du v w = some ans2)
    (hns : mapGet ans v ≠ some none) : dBound ans2 v (optVal du + w) := by
  cases hv : mapGet ans v with
  | none =>
    cases du with
    | none =>
      rw [relaxEdge_at_unreached_none hv] at h
      simp only [Option.some.injEq] at h
      subst h
      refine ⟨some (u, w), ?_, ?_⟩
      · rw [mapGet_mapInsert, if_pos rfl]
      · simp [distVal, optVal]
    | some d0 =>
      rw [relaxEdge_at_unreached_some hv] at h
      simp only [Option.some.injEq] at h
      subst h
      refine ⟨some (u, d0 + w), ?_, ?_⟩
      · rw [mapGet_mapInsert, if_pos rfl]
      · simp [distVal, optVal]
  | some r =>
    cases r with
    | none =>
      rw [hv] at hns
      exact absurd rfl hns
    | some p =>
      obtain ⟨q, dv⟩ := p
      cases du with
      | none =>
        by_cases hge : w ≥ dv
        · rw [relaxEdge_skip_none hv hge] at h
          simp only [Option.some.injEq] at h
          subst h
          exact ⟨some (q, dv), hv, by simp only [distVal, optVal]; linarith⟩
        · rw [relaxEdge_upd_none hv hge] at h
          simp only [Option.some.injEq] at h
          subst h
          refine ⟨some (u, w), ?_, ?_⟩
          · rw [mapGet_mapInsert, if_pos rfl]
          · simp [distVal, optVal]
      | some d0 =>
        by_cases hge : d0 + w ≥ dv
        · rw [relaxEdge_skip_some hv hge] at h
          simp only [Option.some.injEq] at h
          subst h
          exact ⟨some (q, dv), hv, by simp only [distVal, optVal]; linarith⟩
        · rw [relaxEdge_upd_some hv hge] at h
          simp only [Option.some.injEq] at h
          subst h
          refine ⟨some (u, d0 + w), ?_, ?_⟩
          · rw [mapGet_mapInsert, if_pos rfl]
          · simp [distVal, optVal]

/-- All pairs of `es` are stored edges of `u` in `g`. -/
def EdgesOf (g : Graph) (u : Nat) (es : List (Nat × Int)) : Prop :=
  ∀ v w, (v, w) ∈ es → edgeWeight g u v = some w

theorem edgesOf_tail {g : Graph} {u v : Nat} {w : Int} {es : List (Nat × Int)}
    (h : EdgesOf g u ((v, w) :: es)) : EdgesOf g u es :=
  fun v2 w2 hm => h v2 w2 (List.mem_cons_of_mem _ hm)

theorem edgesOf_entry {g : Graph} (hwf : WF g) {u : Nat}
    {es : List (Nat × Int)} (h : (u, es) ∈ g) : EdgesOf g u es := by
  intro v w hm
  exact edgeWeight_mk (mem_mapGet hwf.1 h) (mem_mapGet (hwf.2 (u, es) h) hm)

/-- Every closed walk whose base point is reachable from `s` has nonnegative
weight. -/
def ClosedNonneg (g : Graph) (s : Nat) : Prop :=
  ∀ l x, isWalk g l = true → l.head? = some x → l.getLast? = some x →
    Reachable g s x → 0 ≤ walkW g l

theorem reach_self (g : Graph) (s : Nat) : Reachable g s s :=
  ⟨[s], rfl, rfl, rfl⟩

theorem relaxEdge_ne_none {g : Graph} {s : Nat} {ans : Ans} {u : Nat}
    {du : Option Int} {v : Nat} {w : Int}
    (hInv : Inv g s ans) (hRF : ReadFacts g s ans u du)
    (he : edgeWeight g u v = some w) (hcn : ClosedNonneg g s) :
    relaxEdge ans u du v w ≠ none := by
  intro h
  obtain ⟨hv, hneg⟩ := relaxEdge_none_inv h
  have hvs : v = s := hInv.2.1 v hv
  subst hvs
  obtain ⟨_, ⟨lu, hlu, hluw⟩, _⟩ := hRF
  obtain ⟨hwext, hwW⟩ := walk_extend hlu he
  have h0 := hcn (lu ++ [v]) v hwext.1 hwext.2.1 hwext.2.2 (reach_self g v)
  rw [hwW, hluw] at h0
  linarith

theorem relaxEdges_step {g : Graph} {s u : Nat} {du : Option Int} :
    ∀ {es : List (Nat × Int)} {ans ans2 : Ans}, Inv g s ans →
      ReadFacts g s ans u du → EdgesOf g u es →
      relaxEdges u du ans es = some ans2 → Inv g s ans2 ∧ Mono ans ans2 := by
  intro es
  induction es with
  | nil =>
    intro ans ans2 hInv _ _ h
    simp only [relaxEdges, Option.some.injEq] at h
    subst h
    exact ⟨hInv, mono_refl _⟩
  | cons p rest ih =>
    obtain ⟨v, w⟩ := p
    intro ans ans2 hInv hRF hE h
    cases hre : relaxEdge ans u du v w with
    | none => simp [relaxEdges, hre] at h
    | some a2 =>
      simp only [relaxEdges, hre] at h
      have step := relaxEdge_step hInv hRF (hE v w (List.mem_cons_self _ _)) hre
      have ih2 := ih step.1 (mono_readFacts step.2 hRF) (edgesOf_tail hE) h
      exact ⟨ih2.1, mono_trans step.2 ih2.2⟩

theorem relaxEdges_ne_none {g : Graph} {s u : Nat} {du : Option Int}
    (hcn : ClosedNonneg g s) :
    ∀ {es : List (Nat × Int)} {ans : Ans}, Inv g s ans →
      ReadFacts g s ans u du → EdgesOf g u es →
      relaxEdges u du ans es ≠ none := by
  intro es
  induction es with
  | nil =>
    intro ans _ _ _ h
    simp [relaxEdges] at h
  | cons p rest ih =>
    obtain ⟨v, w⟩ := p
    intro ans hInv hRF hE h
    cases hre : relaxEdge ans u du v w with
    | none =>
      exact relaxEdge_ne_none hInv hRF (hE v w (List.mem_cons_self _ _)) hcn hre
    | some a2 =>
      simp only [relaxEdges, hre] at h
      have step := relaxEdge_step hInv hRF (hE v w (List.mem_cons_self _ _)) hre
      exact ih step.1 (mono_readFacts step.2 hRF) (edgesOf_tail hE) h

/-- The facts `ReadFacts` hold for the `dist_u` value actually read by
`relaxNode`. -/
theorem readFacts_of_get_none {g : Graph} {s : Nat} {ans : Ans} {u : Nat}
    (hInv : Inv g s ans) (hu : mapGet ans u = some none) :
    ReadFacts g s ans u none := by
  have hus : u = s := hInv.2.1 u hu
  subst hus
  refine ⟨⟨none, hu, le_refl _⟩, ⟨[u], ⟨rfl, rfl, rfl⟩, rfl⟩, fun _ => rfl⟩

theorem readFacts_of_get_some {g : Graph} {s : Nat} {ans : Ans} {u q : Nat}
    {d : Int} (hInv : Inv g s ans) (hu : mapGet ans u = some (some (q, d))) :
    ReadFacts g s ans u (some d) := by
  refine ⟨⟨some (q, d), hu, le_refl _⟩, ?_, by intro hh; cases hh⟩
  obtain ⟨_, hwalk⟩ := hInv.2.2 u q d hu
  exact hwalk

theorem relaxNode_step {g : Graph} {s : Nat} {ans : Ans} {u : Nat}
    {es : List (Nat × Int)} {ans2 : Ans} (hInv : Inv g s ans)
    (hE : EdgesOf g u es) (h : relaxNode ans u es = some ans2) :
    Inv g s ans2 ∧ Mono ans ans2 := by
  cases hu : mapGet ans u with
  | none =>
    simp only [relaxNode, hu, Option.some.injEq] at h
    subst h
    exact ⟨hInv, mono_refl _⟩
  | some r =>
    cases r with
    | none =>
      simp only [relaxNode, hu] at h
      exact relaxEdges_step hInv (readFacts_of_get_none hInv hu) hE h
    | some p =>
      obtain ⟨q, d⟩ := p
      simp only [relaxNode, hu] at h
      exact relaxEdges_step hInv (readFacts_of_get_some hInv hu) hE h

theorem relaxNode_ne_none {g : Graph} {s : Nat} {ans : Ans} {u : Nat}
    {es : List (Nat × Int)} (hcn : ClosedNonneg g s) (hInv : Inv g s ans)
    (hE : EdgesOf g u es) : relaxNode ans u es ≠ none := by
  cases hu : mapGet ans u with
  | none => simp [relaxNode, hu]
  | some r =>
    cases r with
    | none =>
      simp only [relaxNode, hu]
      exact relaxEdges_ne_none hcn hInv (readFacts_of_get_none hInv hu) hE
    | some p =>
      obtain ⟨q, d⟩ := p
      simp only [relaxNode, hu]
      exact relaxEdges_ne_none hcn hInv (readFacts_of_get_some hInv hu) hE

theorem relaxPass_step {g : Graph} {s : Nat} (hwf : WF g) :
    ∀ {gl : List (Nat × List (Nat × Int))} {ans ans2 : Ans},
      (∀ p ∈ gl, p ∈ g) → Inv g s ans → relaxPass ans gl = some ans2 →
      Inv g s ans2 ∧ Mono ans ans2 := by
  intro gl
  induction gl with
  | nil =>
    intro ans ans2 _ hInv h
    simp only [relaxPass, Option.some.injEq] at h
    subst h
    exact ⟨hInv, mono_refl _⟩
  | cons p rest ih =>
    obtain ⟨u, es⟩ := p
    intro ans ans2 hsub hInv h
    cases hrn : relaxNode ans u es with
    | none => simp [relaxPass, hrn] at h
    | some a2 =>
      simp only [relaxPass, hrn] at h
      have hE := edgesOf_entry hwf (hsub (u, es) (List.mem_cons_self _ _))
      have step := relaxNode_step hInv hE hrn
      have ih2 := ih (fun q hq => hsub q (List.mem_cons_of_mem _ hq)) step.1 h
      exact ⟨ih2.1, mono_trans step.2 ih2.2⟩

theorem relaxPass_ne_none {g : Graph} {s : Nat} (hwf : WF g)
    (hcn : ClosedNonneg g s) :
    ∀ {gl : List (Nat × List (Nat × Int))} {ans : Ans},
      (∀ p ∈ gl, p ∈ g) → Inv g s ans → relaxPass ans gl ≠ none := by
  intro gl
  induction gl with
  | nil =>
    intro ans _ _ h
    simp [relaxPass] at h
  | cons p rest ih =>
    obtain ⟨u, es⟩ := p
    intro ans hsub hInv h
    cases hrn : relaxNode ans u es with
    | none =>
      exact relaxNode_ne_none hcn hInv
        (edgesOf_entry hwf (hsub (u, es) (List.mem_cons_self _ _))) hrn
    | some a2 =>
      simp only [relaxPass, hrn] at h
      have hE := edgesOf_entry hwf (hsub (u, es) (List.mem_cons_self _ _))
      have step := relaxNode_step hInv hE hrn
      exact ih (fun q hq => hsub q (List.mem_cons_of_mem _ hq)) step.1 h

theorem relaxPasses_step {g : Graph} {s : Nat} (hwf : WF g) :
    ∀ {n : Nat} {ans ans2 : Ans}, Inv g s ans →
      relaxPasses g n ans = some ans2 → Inv g s ans2 ∧ Mono ans ans2 := by
  intro n
  induction n with
  | zero =>
    intro ans ans2 hInv h
    simp only [relaxPasses, Option.some.injEq] at h
    subst h
    exact ⟨hInv, mono_refl _⟩
  | succ n ih =>
    intro ans ans2 hInv h
    cases hrp : relaxPass ans g with
    | none => simp [relaxPasses, hrp] at h
    | some a2 =>
      simp only [relaxPasses, hrp] at h
      have step := relaxPass_step hwf (fun p hp => hp) hInv hrp
      have ih2 := ih step.1 h
      exact ⟨ih2.1, mono_trans step.2 ih2.2⟩

theorem relaxPasses_ne_none {g : Graph} {s : Nat} (hwf : WF g)
    (hcn : ClosedNonneg g s) :
    ∀ {n : Nat} {ans : Ans}, Inv g s ans → relaxPasses g n ans ≠ none := by
  intro n
  induction n with
  | zero =>
    intro ans _ h
    simp [relaxPasses] at h
  | succ n ih =>
    intro ans hInv h
    cases hrp : relaxPass ans g with
    | none => exact relaxPass_ne_none hwf hcn (fun p hp => hp) hInv hrp
    | some a2 =>
      simp only [relaxPasses, hrp] at h
      have step := relaxPass_step hwf (fun p hp => hp) hInv hrp
      exact ih step.1 h

theorem relaxPasses_add (g : Graph) (b : Nat) :
    ∀ (a : Nat) (ans : Ans), relaxPasses g (a + b) ans =
      (relaxPasses g a ans).bind (relaxPasses g b) := by
  intro a
  induction a with
  | zero =>
    intro ans
    simp [relaxPasses, Nat.zero_add]
  | succ a ih =>
    intro ans
    rw [show a + 1 + b = (a + b) + 1 from by omega]
    rw [relaxPasses]
    cases hrp : relaxPass ans g with
    | none =>
      rw [relaxPasses]
      rw [hrp]
      simp
    | some a2 =>
      rw [show relaxPasses g (a + 1) ans =
        match relaxPass ans g with
        | none => none
        | some ans2 => relaxPasses g a ans2 from rfl]
      rw [hrp]
      exact ih a2

theorem relaxPasses_one (g : Graph) (ans : Ans) :
    relaxPasses g 1 ans = relaxPass ans g := by
  show (match relaxPass ans g with
    | none => none
    | some ans2 => relaxPasses g 0 ans2) = relaxPass ans g
  cases hrp : relaxPass ans g with
  | none => rfl
  | some a2 => rfl

theorem relaxPasses_succ_last (g : Graph) (n : Nat) (ans : Ans) :
    relaxPasses g (n + 1) ans =
      (relaxPasses g n ans).bind (fun a => relaxPass a g) := by
  rw [relaxPasses_add g 1 n ans]
  cases h : relaxPasses g n ans with
  | none => simp
  | some a2 =>
    simp only [Option.some_bind]
    exact relaxPasses_one g a2

theorem dBound_weaken {ans : Ans} {x : Nat} {X Y : Int} (h : dBound ans x X)
    (hXY : X ≤ Y) : dBound ans x Y := by
  obtain ⟨r, hr, hle⟩ := h
  exact ⟨r, hr, le_trans hle hXY⟩

theorem relaxEdges_dBound {g : Graph} {s u : Nat} {du : Option Int} {X : Int}
    (hX : optVal du ≤ X) :
    ∀ {es : List (Nat × Int)} {ans ans2 : Ans} {v : Nat} {w : Int},
      Inv g s ans → ReadFacts g s ans u du → EdgesOf g u es →
      relaxEdges u du ans es = some ans2 → (v, w) ∈ es → v ≠ s →
      dBound ans2 v (X + w) := by
  intro es
  induction es with
  | nil =>
    intro ans ans2 v w _ _ _ _ hm _
    simp at hm
  | cons p rest ih =>
    obtain ⟨v2, w2⟩ := p
    intro ans ans2 v w hInv hRF hE h hm hvs
    cases hre : relaxEdge ans u du v2 w2 with
    | none => simp [relaxEdges, hre] at h
    | some a2 =>
      simp only [relaxEdges, hre] at h
      have step := relaxEdge_step hInv hRF (hE v2 w2 (List.mem_cons_self _ _)) hre
      rcases List.mem_cons.mp hm with h1 | h1
      · simp only [Prod.mk.injEq] at h1
        obtain ⟨rfl, rfl⟩ := h1
        have hns : mapGet ans v ≠ some none := by
          intro hh
          exact hvs (hInv.2.1 v hh)
        have hdb := relaxEdge_dBound hre hns
        have hdb2 : dBound a2 v (X + w) := dBound_weaken hdb (by linarith)
        have rest_step :=
          relaxEdges_step step.1 (mono_readFacts step.2 hRF) (edgesOf_tail hE) h
        exact mono_dBound rest_step.2 hdb2
      · exact ih step.1 (mono_readFacts step.2 hRF) (edgesOf_tail hE) h h1 hvs

theorem relaxNode_dBound {g : Graph} {s : Nat} {ans : Ans} {u : Nat}
    {es : List (Nat × Int)} {ans2 : Ans} {v : Nat} {w : Int} {X : Int}
    (hInv : Inv g s ans) (hE : EdgesOf g u es)
    (h : relaxNode ans u es = some ans2) (hm : (v, w) ∈ es) (hvs : v ≠ s)
    (hub : dBound ans u X) : dBound ans2 v (X + w) := by
  obtain ⟨r, hr, hle⟩ := hub
  cases r with
  | none =>
    simp only [relaxNode, hr] at h
    refine relaxEdges_dBound ?_ hInv (readFacts_of_get_none hInv hr) hE h hm hvs
    simpa [optVal, distVal] using hle
  | some p =>
    obtain ⟨q, d⟩ := p
    simp only [relaxNode, hr] at h
    refine relaxEdges_dBound ?_ hInv (readFacts_of_get_some hInv hr) hE h hm hvs
    simpa [optVal, distVal] using hle

theorem relaxPass_dBound {g : Graph} {s : Nat} (hwf : WF g) :
    ∀ {gl : List (Nat × List (Nat × Int))} {ans ans2 : Ans} {u : Nat}
      {es : List (Nat × Int)} {v : Nat} {w : Int} {X : Int},
      (∀ p ∈ gl, p ∈ g) → Inv g s ans → relaxPass ans gl = some ans2 →
      (u, es) ∈ gl → (v, w) ∈ es → v ≠ s → dBound ans u X →
      dBound ans2 v (X + w) := by
  intro gl
  induction gl with
  | nil =>
    intro ans ans2 u es v w X _ _ _ hm
    simp at hm
  | cons p rest ih =>
    obtain ⟨u2, es2⟩ := p
    intro ans ans2 u es v w X hsub hInv h hm hme hvs hub
    cases hrn : relaxNode ans u2 es2 with
    | none => simp [relaxPass, hrn] at h
    | some a2 =>
      simp only [relaxPass, hrn] at h
      have hE2 := edgesOf_entry hwf (hsub (u2, es2) (List.mem_cons_self _ _))
      have step := relaxNode_step hInv hE2 hrn
      rcases List.mem_cons.mp hm with h1 | h1
      · simp only [Prod.mk.injEq] at h1
        obtain ⟨rfl, rfl⟩ := h1
        have hdb := relaxNode_dBound hInv hE2 hrn hme hvs hub
        have rest_step := relaxPass_step hwf
          (fun q hq => hsub q (List.mem_cons_of_mem _ hq)) step.1 h
        exact mono_dBound rest_step.2 hdb
      · exact ih (fun q hq => hsub q (List.mem_cons_of_mem _ hq)) step.1 h h1
          hme hvs (mono_dBound step.2 hub)

theorem init_eq (s : Nat) : mapInsert ([] : Ans) s none = [(s, none)] := rfl

theorem inv_init (g : Graph) (s : Nat) : Inv g s (mapInsert [] s none) := by
  rw [init_eq]
  refine ⟨by simp [mapGet], ?_, ?_⟩
  · intro x hx
    by_cases hxs : x = s
    · exact hxs
    · simp only [mapGet, if_neg hxs] at hx
      cases hx
  · intro v p d hv
    by_cases hvs : v = s
    · subst hvs
      simp [mapGet] at hv
    · simp only [mapGet, if_neg hvs] at hv
      cases hv

theorem dBound_init (s : Nat) : dBound (mapInsert [] s none) s 0 := by
  rw [init_eq]
  exact ⟨none, by simp [mapGet], le_refl _⟩

theorem path_length_le {g : Graph} {P : List Nat} (hnd : P.Nodup)
    (hkeys : ∀ x ∈ P, ∃ es, mapGet g x = some es) : P.length ≤ g.length := by
  have h1 : P.toFinset.card = P.length := List.toFinset_card_of_nodup hnd
  have h2 : P.toFinset ⊆ (g.map Prod.fst).toFinset := by
    intro x hx
    obtain ⟨es, hes⟩ := hkeys x (List.mem_toFinset.mp hx)
    exact List.mem_toFinset.mpr (mapGet_isSome_mem hes)
  have h3 := Finset.card_le_card h2
  have h4 : (g.map Prod.fst).toFinset.card ≤ (g.map Prod.fst).length :=
    (g.map Prod.fst).toFinset_card_le
  rw [List.length_map] at h4
  omega

theorem walk_snoc_inv {g : Graph} {l : List Nat} {v y : Nat}
    (hw : isWalk g (l ++ [v]) = true) (hy : l.getLast? = some y) :
    isWalk g l = true ∧ ∃ w, edgeWeight g y v = some w ∧
      walkW g (l ++ [v]) = walkW g l + w := by
  obtain ⟨l2, rfl⟩ := getLast?_concat_inv hy
  have heq : (l2 ++ [y]) ++ [v] = l2 ++ y :: [v] := by simp
  rw [heq] at hw
  obtain ⟨hw1, hw2⟩ := (isWalk_append g y [v] l2).mp hw
  have hedge : (edgeWeight g y v).isSome = true := by
    rw [show isWalk g [y, v] =
      ((edgeWeight g y v).isSome && isWalk g [v]) from rfl] at hw2
    simp only [Bool.and_eq_true] at hw2
    exact hw2.1
  obtain ⟨w, hwe⟩ := Option.isSome_iff_exists.mp hedge
  refine ⟨hw1, w, hwe, ?_⟩
  rw [heq, walkW_append]
  rw [show walkW g [y, v] = (edgeWeight g y v).getD 0 + walkW g [v] from rfl]
  rw [hwe]
  rw [show walkW g [v] = 0 from rfl]
  rw [show ((some w).getD 0 : Int) = w from rfl]
  ring

/-- After `|P| - 1` relaxation passes, the endpoint of a simple path `P` from
the source whose vertices are all outer keys carries a record bounded by the
weight of `P`. -/
theorem passes_path_dBound {g : Graph} {s : Nat} (hwf : WF g) :
    ∀ {P : List Nat} {ansP : Ans} {t : Nat},
      isWalk g P = true → P.head? = some s → P.Nodup →
      (∀ x ∈ P, ∃ es, mapGet g x = some es) →
      relaxPasses g (P.length - 1) (mapInsert [] s none) = some ansP →
      P.getLast? = some t → dBound ansP t (walkW g P) := by
  intro P
  induction P using List.reverseRecOn with
  | nil =>
    intro ansP t hw
    simp [isWalk] at hw
  | append_singleton l v ihl =>
    intro ansP t hw hh hnd hkeys hrun ht
    have htv : t = v := by
      simp only [List.getLast?_append_of_ne_nil l (by simp :
        ([v] : List Nat) ≠ [])] at ht
      simp only [List.getLast?] at ht
      exact (Option.some.injEq .. ▸ ht :).symm
    rw [htv]
    cases hle : l with
    | nil =>
      subst hle
      have hvs : v = s := by
        simp only [List.nil_append, List.head?] at hh
        exact (Option.some.injEq .. ▸ hh :)
      simp only [List.nil_append, List.length_singleton] at hrun
      simp only [show (1 : Nat) - 1 = 0 from rfl, relaxPasses,
        Option.some.injEq] at hrun
      subst hrun
      rw [show walkW g ([] ++ [v]) = 0 from rfl, hvs]
      exact dBound_init s
    | cons a l2 =>
      have hlne : l ≠ [] := by rw [hle]; simp
      obtain ⟨y, hy⟩ : ∃ y, l.getLast? = some y :=
        ⟨l.getLast hlne, List.getLast?_eq_getLast l hlne⟩
      obtain ⟨hwl, w, hew, hwW⟩ := walk_snoc_inv hw hy
      have hhl : l.head? = some s := by
        rw [← hh]
        rw [hle]
        simp
      have hndl : l.Nodup := hnd.sublist (List.sublist_append_left l [v])
      have hkeysl : ∀ x ∈ l, ∃ es, mapGet g x = some es := by
        intro x hx
        exact hkeys x (List.mem_append_left _ hx)
      have hvnl : v ∉ l := by
        rw [List.nodup_append] at hnd
        intro hv
        exact hnd.2.2 hv (List.mem_singleton_self v)
      have hvs : v ≠ s := by
        intro hh2
        apply hvnl
        rw [hle]
        rw [hle] at hhl
        simp only [List.head?] at hhl
        have ha : a = s := (Option.some.injEq .. ▸ hhl :)
        rw [hh2, ← ha]
        exact List.mem_cons_self _ _
      have hlen : (l ++ [v]).length - 1 = (l.length - 1) + 1 := by
        rw [hle]
        simp
      rw [hlen, relaxPasses_succ_last] at hrun
      cases h1 : relaxPasses g (l.length - 1) (mapInsert [] s none) with
      | none =>
        rw [h1] at hrun
        simp at hrun
      | some ans1 =>
        rw [h1] at hrun
        simp only [Option.some_bind] at hrun
        have ihb := ihl hwl hhl hndl hkeysl h1 hy
        obtain ⟨es, hges, hesv⟩ := edgeWeight_inv hew
        have hInv1 : Inv g s ans1 := (relaxPasses_step hwf (inv_init g s) h1).1
        have hdb := relaxPass_dBound hwf (fun p hp => hp) hInv1 hrun
          (mapGet_mem hges) (mapGet_mem hesv) hvs ihb
        rw [← hle, hwW]
        exact hdb

/-- Same as `passes_path_dBound` for any pass count at least `|P| - 1`. -/
theorem passes_path_dBound_le {g : Graph} {s : Nat} (hwf : WF g)
    {P : List Nat} {ansK : Ans} {t : Nat} {k : Nat}
    (hw : isWalk g P = true) (hh : P.head? = some s) (hnd : P.Nodup)
    (hkeys : ∀ x ∈ P, ∃ es, mapGet g x = some es)
    (hk : P.length - 1 ≤ k)
    (hrun : relaxPasses g k (mapInsert [] s none) = some ansK)
    (ht : P.getLast? = some t) : dBound ansK t (walkW g P) := by
  obtain ⟨r, hr⟩ : ∃ r, k = (P.length - 1) + r := ⟨k - (P.length - 1), by omega⟩
  subst hr
  rw [relaxPasses_add] at hrun
  cases h1 : relaxPasses g (P.length - 1) (mapInsert [] s none) with
  | none =>
    rw [h1] at hrun
    simp at hrun
  | some ansP =>
    rw [h1] at hrun
    simp only [Option.some_bind] at hrun
    have hdb := passes_path_dBound hwf hw hh hnd hkeys h1 ht
    have hInvP : Inv g s ansP := (relaxPasses_step hwf (inv_init g s) h1).1
    exact mono_dBound (relaxPasses_step hwf hInvP hrun).2 hdb

/-! ### Inversion of the top-level function -/

theorem bf_some_inv {g : Graph} {s : Nat} {m : Ans}
    (h : bellman_ford g s = some m) :
    relaxPasses g (g.length - 1) (mapInsert [] s none) = some m ∧
    checkPass m g = false := by
  cases hrp : relaxPasses g (g.length - 1) (mapInsert [] s none) with
  | none =>
    simp only [bellman_ford, hrp] at h
    exact Option.noConfusion h
  | some ans =>
    simp only [bellman_ford, hrp] at h
    by_cases hcp : checkPass ans g
    · rw [if_pos hcp] at h
      cases h
    · rw [if_neg hcp] at h
      simp only [Option.some.injEq] at h
      subst h
      exact ⟨rfl, by rwa [Bool.not_eq_true] at hcp⟩

theorem bf_inv {g : Graph} {s : Nat} {m : Ans} (hwf : WF g)
    (h : bellman_ford g s = some m) : Inv g s m :=
  (relaxPasses_step hwf (inv_init g s) (bf_some_inv h).1).1

theorem relaxEdge_preserves_source {ans : Ans} {s u : Nat} {du : Option Int}
    {v : Nat} {w : Int} {ans2 : Ans} (hs : mapGet ans s = some none)
    (h : relaxEdge ans u du v w = some ans2) : mapGet ans2 s = some none := by
  cases hv : mapGet ans v with
  | none =>
    have hvne : ¬ s = v := by
      intro hh
      rw [hh, hv] at hs
      cases hs
    cases du with
    | none =>
      rw [relaxEdge_at_unreached_none hv] at h
      simp only [Option.some.injEq] at h
      subst h
      rw [mapGet_mapInsert, if_neg hvne]
      exact hs
    | some d0 =>
      rw [relaxEdge_at_unreached_some hv] at h
      simp only [Option.some.injEq] at h
      subst h
      rw [mapGet_mapInsert, if_neg hvne]
      exact hs
  | some r =>
    cases r with
    | none =>
      obtain rfl := relaxEdge_at_source_some hv h
      exact hs
    | some p =>
      obtain ⟨q, dv⟩ := p
      have hvne : ¬ s = v := by
        intro hh
        rw [hh, hv] at hs
        cases hs
      cases du with
      | none =>
        by_cases hge : w ≥ dv
        · rw [relaxEdge_skip_none hv hge] at h
          simp only [Option.some.injEq] at h
          subst h
          exact hs
        · rw [relaxEdge_upd_none hv hge] at h
          simp only [Option.some.injEq] at h
          subst h
          rw [mapGet_mapInsert, if_neg hvne]
          exact hs
      | some d0 =>
        by_cases hge : d0 + w ≥ dv
        · rw [relaxEdge_skip_some hv hge] at h
          simp only [Option.some.injEq] at h
          subst h
          exact hs
        · rw [relaxEdge_upd_some hv hge] at h
          simp only [Option.some.injEq] at h
          subst h
          rw [mapGet_mapInsert, if_neg hvne]
          exact hs

/-- C5: whenever `bellman_ford` returns a mapping, the source is a key of it
and carries the record `None`; moreover a single relaxation step never
replaces a source record `None` with `Some`. -/
theorem source_record_none (g : Graph) (s : Nat) :
    (∀ m, WF g → bellman_ford g s = some m → mapGet m s = some none) ∧
    (∀ ans u du v w ans2, mapGet ans s = some none →
      relaxEdge ans u du v w = some ans2 → mapGet ans2 s = some none) := by
  constructor
  · intro m hwf h
    exact (bf_inv hwf h).1
  · intro ans u du v w ans2 hs h
    exact relaxEdge_preserves_source hs h

/-- Witness for C5: on the single-edge graph the source 0 keeps record
`none`, and a concrete relaxation step leaves a source record alone. -/
theorem source_record_none_witness :
    mapGet [(0, none), (1, some (0, 2))] 0 = some (none : Option (Nat × Int)) ∧
    mapGet [(0, (none : Option (Nat × Int))), (1, some (3, 5))] 0 =
      some none := by
  constructor
  · exact (source_record_none [(0, [(1, 2)]), (1, [])] 0).1
      [(0, none), (1, some (0, 2))] (by decide) (by decide)
  · exact (source_record_none [] 0).2 [(0, none), (1, some (0, 9))] 3
      (some 1) 1 4 [(0, none), (1, some (3, 5))] (by decide) (by decide)

/-- C10: whenever `bellman_ford` returns a mapping, the mapping is
predecessor-closed — the predecessor of every recorded node is itself
recorded. -/
theorem predecessor_closed {g : Graph} {s : Nat} {m : Ans} {v p : Nat}
    {d : Int} (hwf : WF g) (h : bellman_ford g s = some m)
    (hv : mapGet m v = some (some (p, d))) : ∃ rp, mapGet m p = some rp := by
  obtain ⟨⟨w, rp, _, hrp, _⟩, _⟩ := (bf_inv hwf h).2.2 v p d hv
  exact ⟨rp, hrp⟩

/-- Witness for C10 on the single-edge graph. -/
theorem predecessor_closed_witness :
    ∃ rp, mapGet [(0, (none : Option (Nat × Int))), (1, some (0, 2))] 0 =
      some rp :=
  predecessor_closed (g := [(0, [(1, 2)]), (1, [])]) (s := 0) (v := 1)
    (p := 0) (d := 2) (by decide) (by decide) (by decide)

/-! ### Isolated source (C8) -/

theorem checkEdge_none_left {ans : Ans} {u v : Nat} {w : Int}
    (hu : mapGet ans u = none) : checkEdge ans u v w = false := by
  cases hv : mapGet ans v with
  | none => simp [checkEdge, hu, hv]
  | some r =>
    cases r with
    | none => simp [checkEdge, hu, hv]
    | some p =>
      obtain ⟨q, dv⟩ := p
      simp [checkEdge, hu, hv]

theorem isolated_pass {g : Graph} {s : Nat} (hwf : WF g)
    (h : ∀ es, mapGet g s = some es → es = []) :
    ∀ gl, (∀ p ∈ gl, p ∈ g) → relaxPass [(s, none)] gl = some [(s, none)] := by
  intro gl
  induction gl with
  | nil => intro _; rfl
  | cons p rest ih =>
    obtain ⟨u, es⟩ := p
    intro hsub
    have hnode : relaxNode [(s, none)] u es = some [(s, none)] := by
      by_cases hus : u = s
      · subst hus
        have hes : es = [] :=
          h es (mem_mapGet hwf.1 (hsub (u, es) (List.mem_cons_self _ _)))
        subst hes
        simp [relaxNode, mapGet, relaxEdges]
      · simp [relaxNode, mapGet, hus]
    simp only [relaxPass, hnode]
    exact ih (fun q hq => hsub q (List.mem_cons_of_mem _ hq))

theorem isolated_passes {g : Graph} {s : Nat} (hwf : WF g)
    (h : ∀ es, mapGet g s = some es → es = []) :
    ∀ n, relaxPasses g n [(s, none)] = some [(s, none)] := by
  intro n
  induction n with
  | zero => rfl
  | succ n ih =>
    have hp := isolated_pass hwf h g (fun p hp => hp)
    simp only [relaxPasses, hp]
    exact ih

/-- C8: if the source has no outgoing edges — absent from the outer mapping
or mapped to an empty inner mapping — `bellman_ford` returns exactly the
singleton mapping `{source: None}`, whatever else the graph contains. -/
theorem isolated_source {g : Graph} {s : Nat} (hwf : WF g)
    (h0 : mapGet g s = none ∨ mapGet g s = some []) :
    bellman_ford g s = some [(s, none)] := by
  have h : ∀ es, mapGet g s = some es → es = [] := by
    intro es hes
    rcases h0 with h0 | h0
    · rw [h0] at hes
      cases hes
    · rw [h0] at hes
      exact (Option.some.injEq .. ▸ hes :).symm
  have hrp : relaxPasses g (g.length - 1) (mapInsert [] s none) =
      some [(s, none)] := by
    rw [init_eq]
    exact isolated_passes hwf h _
  have hcp : checkPass [(s, none)] g = false := by
    rw [checkPass, List.any_eq_false]
    intro p hp
    rw [Bool.not_eq_true, List.any_eq_false]
    intro q hq
    by_cases hus : p.1 = s
    · have hps : p.2 = [] := by
        apply h
        rw [← hus]
        exact mem_mapGet hwf.1 (by rw [Prod.mk.eta] at *; exact hp)
      rw [hps] at hq
      simp at hq
    · have hnone : mapGet ([(s, none)] : Ans) p.1 = none := by
        simp [mapGet, hus]
      rw [checkEdge_none_left hnone]
      simp
  simp only [bellman_ford, hrp, hcp]
  simp

/-- Witness for C8: source 2 has an empty entry while an unreachable negative
self-loop sits at node 1; the result is exactly `{2: None}`. -/
theorem isolated_source_witness :
    bellman_ford [(1, [(1, -1)]), (2, [])] 2 = some [(2, none)] :=
  isolated_source (by decide) (Or.inr (by decide))

/-! ### The detection pass -/

/-- When the detection pass reports no negative cycle, every stored edge
between two recorded nodes satisfies the triangle inequality (reading the
source record as distance 0). -/
theorem checkPass_false_edge {g : Graph} {ans : Ans} {u v : Nat} {w : Int}
    (hcp : checkPass ans g = false) {es : List (Nat × Int)}
    (hges : mapGet g u = some es) (hesv : mapGet es v = some w)
    {ru rv : Option (Nat × Int)} (hru : mapGet ans u = some ru)
    (hrv : mapGet ans v = some rv) : distVal rv ≤ distVal ru + w := by
  rw [checkPass, List.any_eq_false] at hcp
  have h1 := hcp (u, es) (mapGet_mem hges)
  rw [Bool.not_eq_true, List.any_eq_false] at h1
  have h2 := h1 (v, w) (mapGet_mem hesv)
  rw [Bool.not_eq_true] at h2
  cases ru with
  | none =>
    cases rv with
    | none =>
      simp only [checkEdge, hru, hrv, decide_eq_false_iff_not] at h2
      push_neg at h2
      simp only [distVal]
      linarith
    | some p =>
      obtain ⟨q, dv⟩ := p
      simp only [checkEdge, hru, hrv, decide_eq_false_iff_not] at h2
      push_neg at h2
      simp only [distVal]
      linarith
  | some p =>
    obtain ⟨q, du2⟩ := p
    cases rv with
    | none =>
      simp only [checkEdge, hru, hrv, decide_eq_false_iff_not] at h2
      push_neg at h2
      simp only [distVal]
      linarith
    | some p2 =>
      obtain ⟨q2, dv⟩ := p2
      simp only [checkEdge, hru, hrv, decide_eq_false_iff_not] at h2
      push_neg at h2
      simp only [distVal]
      linarith

/-- Telescoping the triangle inequality along any walk whose vertices are
all recorded. -/
theorem check_walk_bound {g : Graph} {ans : Ans}
    (hcp : checkPass ans g = false) :
    ∀ {l : List Nat}, isWalk g l = true →
      (∀ x ∈ l, ∃ r, mapGet ans x = some r) →
      ∀ {a b : Nat} {ra rb : Option (Nat × Int)}, l.head? = some a →
        l.getLast? = some b → mapGet ans a = some ra →
        mapGet ans b = some rb → distVal rb ≤ distVal ra + walkW g l := by
  intro l
  induction l with
  | nil =>
    intro hw
    simp [isWalk] at hw
  | cons x t ih =>
    intro hw hmem a b ra rb hha hlb hra hrb
    cases t with
    | nil =>
      have hax : a = x := by
        simp only [List.head?] at hha
        exact (Option.some.injEq .. ▸ hha :).symm
      have hbx : b = x := by
        simp only [List.getLast?] at hlb
        exact (Option.some.injEq .. ▸ hlb :).symm
      rw [hax] at hra
      rw [hbx] at hrb
      rw [hra] at hrb
      obtain rfl := (Option.some.injEq .. ▸ hrb :)
      rw [show walkW g [x] = 0 from rfl]
      linarith
    | cons y t2 =>
      rw [show isWalk g (x :: y :: t2) =
        ((edgeWeight g x y).isSome && isWalk g (y :: t2)) from rfl,
        Bool.and_eq_true] at hw
      obtain ⟨w, hxy⟩ := Option.isSome_iff_exists.mp hw.1
      have hax : a = x := by
        simp only [List.head?] at hha
        exact (Option.some.injEq .. ▸ hha :).symm
      rw [hax] at hra
      obtain ⟨ry, hry⟩ := hmem y (List.mem_cons_of_mem _ (List.mem_cons_self _ _))
      obtain ⟨es, hges, hesv⟩ := edgeWeight_inv hxy
      have hstep := checkPass_false_edge hcp hges hesv hra hry
      have hrest := ih hw.2
        (fun z hz => hmem z (List.mem_cons_of_mem _ hz)) rfl
        (by rw [← hlb]; rfl) hry hrb
      rw [show walkW g (x :: y :: t2) =
        (edgeWeight g x y).getD 0 + walkW g (y :: t2) from rfl, hxy]
      rw [show ((some w).getD 0 : Int) = w from rfl]
      linarith

/-! ### Extracting simple paths and cycles from walks -/

theorem not_nodup_split {α : Type} :
    ∀ {l : List α}, ¬ l.Nodup →
      ∃ pre y mid suf, l = pre ++ y :: (mid ++ y :: suf) := by
  intro l
  induction l with
  | nil =>
    intro h
    exact absurd List.nodup_nil h
  | cons a t ih =>
    intro h
    rw [List.nodup_cons] at h
    by_cases ha : a ∈ t
    · obtain ⟨mid, suf, rfl⟩ := List.append_of_mem ha
      exact ⟨[], a, mid, suf, rfl⟩
    · have hnd : ¬ t.Nodup := by
        intro hh
        exact h ⟨ha, hh⟩
      obtain ⟨pre, y, mid, suf, rfl⟩ := ih hnd
      exact ⟨a :: pre, y, mid, suf, rfl⟩

/-- Removing a loop between two occurrences of the same vertex keeps a walk
with the same endpoints. -/
theorem walk_cut {g : Graph} {pre mid suf : List Nat} {y a b : Nat}
    (hw : isWalk g (pre ++ y :: (mid ++ y :: suf)) = true)
    (hha : (pre ++ y :: (mid ++ y :: suf)).head? = some a)
    (hlb : (pre ++ y :: (mid ++ y :: suf)).getLast? = some b) :
    isWalk g (pre ++ y :: suf) = true ∧
    (pre ++ y :: suf).head? = some a ∧
    (pre ++ y :: suf).getLast? = some b ∧
    isWalk g ((y :: mid) ++ [y]) = true ∧
    walkW g (pre ++ y :: (mid ++ y :: suf)) =
      walkW g (pre ++ y :: suf) + walkW g ((y :: mid) ++ [y]) := by
  have hsplit1 := (isWalk_append g y (mid ++ y :: suf) pre).mp hw
  have hsplit2 := (isWalk_append g y suf (y :: mid)).mp hsplit1.2
  have hglue := (isWalk_append g y suf pre).mpr ⟨hsplit1.1, hsplit2.2⟩
  refine ⟨hglue, ?_, ?_, hsplit2.1, ?_⟩
  · rw [← hha]
    exact head?_append_cons pre y suf (mid ++ y :: suf)
  · rw [← hlb,
      List.getLast?_append_of_ne_nil pre (show (y :: suf : List Nat) ≠ [] by simp),
      List.getLast?_append_of_ne_nil pre
        (show (y :: (mid ++ y :: suf) : List Nat) ≠ [] by simp),
      show ((y :: (mid ++ y :: suf) : List Nat)).getLast? =
        ((y :: mid) ++ y :: suf).getLast? from rfl,
      List.getLast?_append_of_ne_nil (y :: mid)
        (show (y :: suf : List Nat) ≠ [] by simp)]
  · rw [walkW_append g y (mid ++ y :: suf) pre, walkW_append g y suf pre,
      show walkW g (y :: (mid ++ y :: suf)) =
        walkW g ((y :: mid) ++ y :: suf) from rfl,
      walkW_append g y suf (y :: mid)]
    ring

/-- Every walk contains a simple path with the same endpoints. -/
theorem walk_to_simple {g : Graph} :
    ∀ (n : Nat) (l : List Nat) (a b : Nat), l.length ≤ n →
      WalkFromTo g a b l → ∃ P, WalkFromTo g a b P ∧ P.Nodup := by
  intro n
  induction n with
  | zero =>
    intro l a b hlen hwalk
    have := isWalk_ne_nil hwalk.1
    cases l with
    | nil => exact absurd rfl this
    | cons x t => simp at hlen
  | succ n ih =>
    intro l a b hlen hwalk
    by_cases hnd : l.Nodup
    · exact ⟨l, hwalk, hnd⟩
    · obtain ⟨pre, y, mid, suf, rfl⟩ := not_nodup_split hnd
      obtain ⟨hw2, hh2, hl2, _, _⟩ := walk_cut hwalk.1 hwalk.2.1 hwalk.2.2
      refine ih (pre ++ y :: suf) a b ?_ ⟨hw2, hh2, hl2⟩
      have hlen2 : (pre ++ y :: (mid ++ y :: suf)).length ≤ n + 1 := hlen
      simp only [List.length_append, List.length_cons] at hlen2 ⊢
      omega

/-- Every walk from the source contains a simple path with the same
endpoints and no larger weight, provided closed walks based at reachable
vertices have nonnegative weight. -/
theorem walk_to_simple_w {g : Graph} {s : Nat} (hcn : ClosedNonneg g s) :
    ∀ (n : Nat) (l : List Nat) (b : Nat), l.length ≤ n →
      WalkFromTo g s b l →
      ∃ P, WalkFromTo g s b P ∧ P.Nodup ∧ walkW g P ≤ walkW g l := by
  intro n
  induction n with
  | zero =>
    intro l b hlen hwalk
    have hne := isWalk_ne_nil hwalk.1
    cases l with
    | nil => exact absurd rfl hne
    | cons x t => simp at hlen
  | succ n ih =>
    intro l b hlen hwalk
    by_cases hnd : l.Nodup
    · exact ⟨l, hwalk, hnd, le_refl _⟩
    · obtain ⟨pre, y, mid, suf, rfl⟩ := not_nodup_split hnd
      obtain ⟨hw2, hh2, hl2, hinner, hwsum⟩ :=
        walk_cut hwalk.1 hwalk.2.1 hwalk.2.2
      have hymem : y ∈ pre ++ y :: (mid ++ y :: suf) := by simp
      have hreach : Reachable g s y :=
        reach_of_mem_walk hwalk.1 hymem hwalk.2.1 (reach_self g s)
      have hinner_nonneg : 0 ≤ walkW g ((y :: mid) ++ [y]) :=
        hcn ((y :: mid) ++ [y]) y hinner rfl
          (getLast?_concat_eq (y :: mid) y) hreach
      obtain ⟨P, hP, hPnd, hPw⟩ := ih (pre ++ y :: suf) b (by
        have hlen2 : (pre ++ y :: (mid ++ y :: suf)).length ≤ n + 1 := hlen
        simp only [List.length_append, List.length_cons] at hlen2 ⊢
        omega) ⟨hw2, hh2, hl2⟩
      refine ⟨P, hP, hPnd, ?_⟩
      rw [hwsum]
      linarith

/-- A negative closed walk based at a vertex reachable from `s` contains a
negative simple cycle based at a vertex reachable from `s`. -/
theorem neg_closed_walk_cycle {g : Graph} {s : Nat} :
    ∀ (n : Nat) (l : List Nat) (x : Nat), l.length ≤ n →
      isWalk g l = true → l.head? = some x → l.getLast? = some x →
      Reachable g s x → walkW g l < 0 →
      ∃ c y, IsCycle g c ∧ c.head? = some y ∧ Reachable g s y ∧
        walkW g c < 0 := by
  intro n
  induction n with
  | zero =>
    intro l x hlen hw hh hl hr hneg
    have hne := isWalk_ne_nil hw
    cases l with
    | nil => exact absurd rfl hne
    | cons a t => simp at hlen
  | succ n ih =>
    intro l x hlen hw hh hl hr hneg
    by_cases hnd : l.dropLast.Nodup
    · have hlen2 : 2 ≤ l.length := by
        cases l with
        | nil => simp [isWalk] at hw
        | cons a t =>
          cases t with
          | nil =>
            rw [show walkW g [a] = 0 from rfl] at hneg
            linarith
          | cons b2 t2 => simp
      refine ⟨l, x, ⟨hw, by rw [hh, hl], hlen2, hnd⟩, hh, hr, hneg⟩
    · obtain ⟨l2, rfl⟩ := getLast?_concat_inv hl
      rw [show (l2 ++ [x]).dropLast = l2 from by simp] at hnd
      obtain ⟨pre, y, mid, suf, rfl⟩ := not_nodup_split hnd
      have heq : (pre ++ y :: (mid ++ y :: suf)) ++ [x] =
          pre ++ y :: (mid ++ y :: (suf ++ [x])) := by simp
      rw [heq] at hw hh hl hneg hlen
      obtain ⟨hw2, hh2, hl2x, hinner, hwsum⟩ := walk_cut hw hh hl
      by_cases hin : walkW g ((y :: mid) ++ [y]) < 0
      · have hymem : y ∈ pre ++ y :: (mid ++ y :: (suf ++ [x])) := by simp
        have hreach : Reachable g s y := reach_of_mem_walk hw hymem hh hr
        refine ih ((y :: mid) ++ [y]) y ?_ hinner rfl
          (getLast?_concat_eq (y :: mid) y) hreach hin
        have hlen2 : (pre ++ y :: (mid ++ y :: (suf ++ [x]))).length ≤ n + 1 :=
          hlen
        simp only [List.length_append, List.length_cons] at hlen2 ⊢
        omega
      · push_neg at hin
        have hout : walkW g (pre ++ y :: (suf ++ [x])) < 0 := by
          rw [hwsum] at hneg
          linarith
        refine ih (pre ++ y :: (suf ++ [x])) x ?_ hw2 hh2 hl2x hr hout
        have hlen2 : (pre ++ y :: (mid ++ y :: (suf ++ [x]))).length ≤ n + 1 :=
          hlen
        simp only [List.length_append, List.length_cons] at hlen2 ⊢
        omega

/-- If no negative cycle is reachable from `s`, every closed walk based at a
reachable vertex has nonnegative weight. -/
theorem closedNonneg_of_noNegCycle {g : Graph} {s : Nat}
    (h : NoNegCycle g s) : ClosedNonneg g s := by
  intro l x hw hh hl hr
  by_contra hneg
  push_neg at hneg
  obtain ⟨c, y, hc1, hc2, hc3, hc4⟩ :=
    neg_closed_walk_cycle l.length l x (le_refl _) hw hh hl hr (by linarith)
  exact h ⟨c, y, hc1, hc2, hc3, hc4⟩

theorem head?_mem {α : Type} {l : List α} {x : α} (h : l.head? = some x) :
    x ∈ l := by
  cases l with
  | nil => cases h
  | cons a t =>
    simp only [List.head?] at h
    obtain rfl := (Option.some.injEq .. ▸ h :)
    exact List.mem_cons_self _ _

theorem head?_mem_dropLast {l : List Nat} {x : Nat} (hlen : 2 ≤ l.length)
    (h : l.head? = some x) : x ∈ l.dropLast := by
  cases l with
  | nil => cases h
  | cons a t =>
    cases t with
    | nil => simp at hlen
    | cons b t2 =>
      simp only [List.head?] at h
      obtain rfl := (Option.some.injEq .. ▸ h :)
      rw [show (a :: b :: t2).dropLast = a :: (b :: t2).dropLast from by simp]
      exact List.mem_cons_self _ _

theorem mem_dropLast_or_last {l : List Nat} {y z : Nat} (hy : y ∈ l)
    (hz : l.getLast? = some z) : y ∈ l.dropLast ∨ y = z := by
  obtain ⟨l2, rfl⟩ := getLast?_concat_inv hz
  rw [show (l2 ++ [z]).dropLast = l2 from by simp]
  rcases List.mem_append.mp hy with h | h
  · exact Or.inl h
  · exact Or.inr (List.mem_singleton.mp h)

/-- Every vertex of a closed walk of at least one edge has an out-edge
stored in the graph. -/
theorem cycle_mem_key {g : Graph} {c : List Nat} {y : Nat}
    (hcw : isWalk g c = true) (hche : c.head? = c.getLast?)
    (hclen : 2 ≤ c.length) (hy : y ∈ c) :
    ∃ es, mapGet g y = some es := by
  have hne : c ≠ [] := isWalk_ne_nil hcw
  obtain ⟨x, hx⟩ : ∃ x, c.head? = some x := by
    cases c with
    | nil => exact absurd rfl hne
    | cons a t => exact ⟨a, rfl⟩
  rcases mem_dropLast_or_last hy (hche ▸ hx) with h | h
  · exact walk_interior_key hcw h
  · subst h
    exact walk_interior_key hcw (head?_mem_dropLast hclen hx)

/-- Every node reachable through outer-key vertices is recorded after the
relaxation passes. -/
theorem reached_recorded {g : Graph} {s : Nat} {m : Ans} {y : Nat}
    (hwf : WF g)
    (hrp : relaxPasses g (g.length - 1) (mapInsert [] s none) = some m)
    (hyr : Reachable g s y) (hykey : ∃ es, mapGet g y = some es) :
    ∃ r, mapGet m y = some r := by
  obtain ⟨lw, hlw⟩ := hyr
  obtain ⟨P, hP, hPnd⟩ := walk_to_simple lw.length lw s y (le_refl _) hlw
  have hPkeys : ∀ z ∈ P, ∃ es, mapGet g z = some es := by
    intro z hz
    rcases mem_dropLast_or_last hz hP.2.2 with h | h
    · exact walk_interior_key hP.1 h
    · subst h
      exact hykey
  have hcard := path_length_le hPnd hPkeys
  have hPne : P ≠ [] := isWalk_ne_nil hP.1
  have hPlen : 1 ≤ P.length := by
    cases P with
    | nil => exact absurd rfl hPne
    | cons a t => simp
  have hdb := passes_path_dBound_le hwf hP.1 hP.2.1 hPnd hPkeys
    (by omega) hrp hP.2.2
  obtain ⟨r, hr, _⟩ := hdb
  exact ⟨r, hr⟩

/-- C2: if the graph contains a directed cycle of strictly negative total
weight reachable from the source (including a negative self-loop, and the
case where the source lies on the cycle), `bellman_ford` returns `None` and
no distance mapping. -/
theorem negative_cycle_detected {g : Graph} {s : Nat} (hwf : WF g)
    (hc : ∃ c x, IsCycle g c ∧ c.head? = some x ∧ Reachable g s x ∧
      walkW g c < 0) :
    bellman_ford g s = none := by
  obtain ⟨c, x, ⟨hcw, hche, hclen, hcnd⟩, hchx, hcr, hcneg⟩ := hc
  cases hbf : bellman_ford g s with
  | none => rfl
  | some m =>
    exfalso
    obtain ⟨hrp, hcp⟩ := bf_some_inv hbf
    have hmem : ∀ y ∈ c, ∃ r, mapGet m y = some r := by
      intro y hy
      exact reached_recorded hwf hrp (reach_of_mem_walk hcw hy hchx hcr)
        (cycle_mem_key hcw hche hclen hy)
    obtain ⟨rx, hrx⟩ := hmem x (head?_mem hchx)
    have hbound := check_walk_bound hcp hcw hmem hchx (hche ▸ hchx) hrx hrx
    linarith

/-- Witness for C2: a single-node graph with a negative self-loop is
rejected. -/
theorem negative_cycle_detected_witness :
    bellman_ford [(0, [(0, -1)])] 0 = none :=
  negative_cycle_detected (by decide)
    ⟨[0, 0], 0, by decide, by decide, ⟨[0], by decide⟩, by decide⟩

theorem head?_append_left {α : Type} {l : List α} (l2 : List α)
    (h : l ≠ []) : (l ++ l2).head? = l.head? := by
  cases l with
  | nil => exact absurd rfl h
  | cons a t => rfl

/-- Along a walk, any transitive relation that covers every stored edge
relates the head to the last vertex (for walks with at least one edge). -/
theorem walk_rel {g : Graph} {r : Nat → Nat → Prop}
    (htr : ∀ {a b c : Nat}, r a b → r b c → r a c)
    (hmono : ∀ u v w2, edgeWeight g u v = some w2 → r u v) :
    ∀ {l : List Nat} {a b : Nat}, isWalk g l = true → 2 ≤ l.length →
      l.head? = some a → l.getLast? = some b → r a b := by
  intro l
  induction l with
  | nil =>
    intro a b hw
    simp [isWalk] at hw
  | cons x t ih =>
    intro a b hw hlen hha hlb
    cases t with
    | nil => simp at hlen
    | cons y t2 =>
      rw [show isWalk g (x :: y :: t2) =
        ((edgeWeight g x y).isSome && isWalk g (y :: t2)) from rfl,
        Bool.and_eq_true] at hw
      obtain ⟨w2, hxy⟩ := Option.isSome_iff_exists.mp hw.1
      have hxa : a = x := by
        simp only [List.head?] at hha
        exact (Option.some.injEq .. ▸ hha :).symm
      have hlt1 : r x y := hmono x y w2 hxy
      cases t2 with
      | nil =>
        have hby : b = y := by
          simp only [List.getLast?] at hlb
          exact (Option.some.injEq .. ▸ hlb :).symm
        rw [hxa, hby]
        exact hlt1
      | cons z t3 =>
        have ihb : r y b := ih hw.2 (by simp) rfl (by rw [← hlb]; rfl)
        rw [hxa]
        exact htr hlt1 ihb

/-- A graph whose every stored edge respects an irreflexive transitive
relation has no cycle at all, hence no negative one. -/
theorem noNegCycle_of_rel {g : Graph} {r : Nat → Nat → Prop}
    (htr : ∀ {a b c : Nat}, r a b → r b c → r a c)
    (hirr : ∀ a, ¬ r a a)
    (hmono : ∀ p ∈ g, ∀ q ∈ p.2, r p.1 q.1) (s : Nat) : NoNegCycle g s := by
  rintro ⟨c, x, ⟨hcw, hche, hclen, _⟩, hchx, _, _⟩
  have hmono2 : ∀ u v w2, edgeWeight g u v = some w2 → r u v := by
    intro u v w2 he
    obtain ⟨es, h1, h2⟩ := edgeWeight_inv he
    exact hmono (u, es) (mapGet_mem h1) (v, w2) (mapGet_mem h2)
  exact hirr x (@walk_rel g r @htr hmono2 c x x hcw hclen hchx (hche ▸ hchx))

/-- In a `Some` result, every recorded distance is at most the weight of any
simple path from the source: the pass count covers the path's prefix (whose
vertices all have out-edges) and the detection pass covers its last edge. -/
theorem recorded_upper {g : Graph} {s : Nat} {m : Ans} (hwf : WF g)
    (hrp : relaxPasses g (g.length - 1) (mapInsert [] s none) = some m)
    (hcp : checkPass m g = false) {v : Nat} {rv : Option (Nat × Int)}
    (hrv : mapGet m v = some rv) {P : List Nat}
    (hP : WalkFromTo g s v P) (hnd : P.Nodup) : distVal rv ≤ walkW g P := by
  have hInv : Inv g s m := (relaxPasses_step hwf (inv_init g s) hrp).1
  obtain ⟨hPw, hPh, hPl⟩ := hP
  obtain ⟨P2, rfl⟩ := getLast?_concat_inv hPl
  by_cases hnil : P2 = []
  · subst hnil
    have hvs : v = s := by
      simp only [List.nil_append, List.head?] at hPh
      exact (Option.some.injEq .. ▸ hPh :)
    rw [hvs, hInv.1] at hrv
    obtain rfl := (Option.some.injEq .. ▸ hrv :)
    rw [show walkW g ([] ++ [v]) = 0 from rfl]
    simp [distVal]
  · obtain ⟨y, hy⟩ : ∃ y, P2.getLast? = some y :=
      ⟨P2.getLast hnil, List.getLast?_eq_getLast P2 hnil⟩
    obtain ⟨hw2, w, hew, hwW⟩ := walk_snoc_inv hPw hy
    have hh2 : P2.head? = some s := by
      rw [← head?_append_left [v] hnil]
      exact hPh
    have hndP2 : P2.Nodup := hnd.sublist (List.sublist_append_left P2 [v])
    have hkeys2 : ∀ z ∈ P2, ∃ es, mapGet g z = some es := by
      intro z hz
      apply walk_interior_key hPw
      rw [show (P2 ++ [v]).dropLast = P2 from by simp]
      exact hz
    have hcard := path_length_le hndP2 hkeys2
    have hP2len : 0 < P2.length := List.length_pos.mpr hnil
    have hdb := passes_path_dBound_le hwf hw2 hh2 hndP2 hkeys2
      (by omega) hrp hy
    obtain ⟨ry, hry, hley⟩ := hdb
    obtain ⟨es, hges, hesv⟩ := edgeWeight_inv hew
    have hstep := checkPass_false_edge hcp hges hesv hry hrv
    rw [hwW]
    linarith

/-- C1: in a graph with no negative cycle reachable from the source, when
`bellman_ford` returns a mapping, every recorded node `v` with
`Some (p, d)` has `d` equal to the recorded distance of its predecessor `p`
plus the weight of the stored edge `p -> v`, and `d` is the minimum total
weight over all paths from the source to `v` — it is a lower bound on the
weight of every walk and is attained both by a walk and by a simple path. -/
theorem shortest_path_correct {g : Graph} {s : Nat} {m : Ans} {v p : Nat}
    {d : Int} (hwf : WF g) (hnc : NoNegCycle g s)
    (hbf : bellman_ford g s = some m)
    (hv : mapGet m v = some (some (p, d))) :
    (∃ w rp, edgeWeight g p v = some w ∧ mapGet m p = some rp ∧
      d = distVal rp + w) ∧
    (∃ l, WalkFromTo g s v l ∧ walkW g l = d) ∧
    (∀ l, WalkFromTo g s v l → d ≤ walkW g l) ∧
    (∃ P, WalkFromTo g s v P ∧ P.Nodup ∧ walkW g P = d) := by
  obtain ⟨hrp, hcp⟩ := bf_some_inv hbf
  have hInv : Inv g s m := (relaxPasses_step hwf (inv_init g s) hrp).1
  have hcn : ClosedNonneg g s := closedNonneg_of_noNegCycle hnc
  obtain ⟨⟨w, rp, hew, hrp2, hle⟩, ⟨l0, hl0, hl0w⟩⟩ := hInv.2.2 v p d hv
  have hlower : ∀ l, WalkFromTo g s v l → d ≤ walkW g l := by
    intro l hl
    obtain ⟨P, hPP, hPnd, hPle⟩ :=
      walk_to_simple_w hcn l.length l v (le_refl _) hl
    have hup := recorded_upper hwf hrp hcp hv hPP hPnd
    have hupd : d ≤ walkW g P := by simpa [distVal] using hup
    linarith
  refine ⟨⟨w, rp, hew, hrp2, ?_⟩, ⟨l0, hl0, hl0w⟩, hlower, ?_⟩
  · obtain ⟨es, hges, hesv⟩ := edgeWeight_inv hew
    have hstep := checkPass_false_edge hcp hges hesv hrp2 hv
    have h2 : d ≤ distVal rp + w := by simpa [distVal] using hstep
    linarith
  · obtain ⟨P, hPP, hPnd, hPle⟩ :=
      walk_to_simple_w hcn l0.length l0 v (le_refl _) hl0
    have hge := hlower P hPP
    refine ⟨P, hPP, hPnd, ?_⟩
    rw [hl0w] at hPle
    linarith

/-- Witness for C1 on the single-edge graph `0 -> 1` of weight 2 from
source 0: node 1 is recorded as `(0, 2)` and 2 is the shortest distance. -/
theorem shortest_path_correct_witness :
    (∃ w rp, edgeWeight [(0, [(1, 2)]), (1, [])] 0 1 = some w ∧
      mapGet [(0, none), (1, some (0, 2))] 0 = some rp ∧
      (2 : Int) = distVal rp + w) ∧
    (∃ l, WalkFromTo [(0, [(1, 2)]), (1, [])] 0 1 l ∧
      walkW [(0, [(1, 2)]), (1, [])] l = 2) ∧
    (∀ l, WalkFromTo [(0, [(1, 2)]), (1, [])] 0 1 l →
      2 ≤ walkW [(0, [(1, 2)]), (1, [])] l) ∧
    (∃ P, WalkFromTo [(0, [(1, 2)]), (1, [])] 0 1 P ∧ P.Nodup ∧
      walkW [(0, [(1, 2)]), (1, [])] P = 2) :=
  shortest_path_correct (by decide)
    (@noNegCycle_of_rel [(0, [(1, 2)]), (1, [])] (fun a b => a < b)
      (fun hab hbc => lt_trans hab hbc) (fun a => lt_irrefl a) (by decide) 0)
    (by decide) (by decide)

/-- Every stored edge's destination is itself an outer key — as guaranteed
for every graph built with `add_edge`. -/
def ClosedGraph (g : Graph) : Prop :=
  ∀ p ∈ g, ∀ q ∈ p.2, (mapGet g q.1).isSome = true

instance (g : Graph) : Decidable (ClosedGraph g) := by
  unfold ClosedGraph
  infer_instance

/-- Every recorded value is realised by a walk from the source (the source's
`none` record by the trivial walk). -/
theorem inv_walk {g : Graph} {s : Nat} {m : Ans} {u : Nat}
    {ru : Option (Nat × Int)} (hInv : Inv g s m)
    (hru : mapGet m u = some ru) :
    ∃ l, WalkFromTo g s u l ∧ walkW g l = distVal ru := by
  cases ru with
  | none =>
    have hus : u = s := hInv.2.1 u hru
    refine ⟨[u], ⟨rfl, ?_, rfl⟩, rfl⟩
    rw [hus]
    rfl
  | some p =>
    obtain ⟨q2, d2⟩ := p
    obtain ⟨_, hw⟩ := hInv.2.2 u q2 d2 hru
    exact hw

theorem checkEdge_false_of_le {m : Ans} {u v : Nat} {w : Int}
    {ru rv : Option (Nat × Int)} (hru : mapGet m u = some ru)
    (hrv : mapGet m v = some rv) (h : distVal rv ≤ distVal ru + w) :
    checkEdge m u v w = false := by
  cases ru with
  | none =>
    cases rv with
    | none =>
      simp only [distVal] at h
      simp only [checkEdge, hru, hrv, decide_eq_false_iff_not]
      push_neg
      linarith
    | some p =>
      obtain ⟨q, dv⟩ := p
      simp only [distVal] at h
      simp only [checkEdge, hru, hrv, decide_eq_false_iff_not]
      push_neg
      linarith
  | some p =>
    obtain ⟨q, du⟩ := p
    cases rv with
    | none =>
      simp only [distVal] at h
      simp only [checkEdge, hru, hrv, decide_eq_false_iff_not]
      push_neg
      linarith
    | some p2 =>
      obtain ⟨q2, dv⟩ := p2
      simp only [distVal] at h
      simp only [checkEdge, hru, hrv, decide_eq_false_iff_not]
      push_neg
      linarith

/-- On a closed graph with no reachable negative cycle, once the passes have
run, every stored edge between recorded nodes satisfies the triangle
inequality. -/
theorem closed_edge_le {g : Graph} {s : Nat} {m : Ans} (hwf : WF g)
    (hclosed : ClosedGraph g) (hcn : ClosedNonneg g s)
    (hrp : relaxPasses g (g.length - 1) (mapInsert [] s none) = some m)
    {u v : Nat} {w : Int} {es : List (Nat × Int)} (hpe : (u, es) ∈ g)
    (hqe : (v, w) ∈ es) {ru rv : Option (Nat × Int)}
    (hru : mapGet m u = some ru) (hrv : mapGet m v = some rv) :
    distVal rv ≤ distVal ru + w := by
  have hInv : Inv g s m := (relaxPasses_step hwf (inv_init g s) hrp).1
  have he : edgeWeight g u v = some w :=
    edgeWeight_mk (mem_mapGet hwf.1 hpe) (mem_mapGet (hwf.2 (u, es) hpe) hqe)
  obtain ⟨lu, hlu, hluw⟩ := inv_walk hInv hru
  obtain ⟨hwext, hwextW⟩ := walk_extend hlu he
  obtain ⟨P, hPP, hPnd, hPle⟩ :=
    walk_to_simple_w hcn (lu ++ [v]).length (lu ++ [v]) v (le_refl _) hwext
  have hvkey : ∃ es2, mapGet g v = some es2 :=
    Option.isSome_iff_exists.mp (hclosed (u, es) hpe (v, w) hqe)
  have hPkeys : ∀ z ∈ P, ∃ es2, mapGet g z = some es2 := by
    intro z hz
    rcases mem_dropLast_or_last hz hPP.2.2 with h | h
    · exact walk_interior_key hPP.1 h
    · subst h
      exact hvkey
  have hcard := path_length_le hPnd hPkeys
  have hPpos : 0 < P.length := List.length_pos.mpr (isWalk_ne_nil hPP.1)
  obtain ⟨r, hr, hle⟩ := passes_path_dBound_le hwf hPP.1 hPP.2.1 hPnd hPkeys
    (by omega) hrp hPP.2.2
  rw [hrv] at hr
  obtain rfl := (Option.some.injEq .. ▸ hr :)
  rw [hwextW, hluw] at hPle
  linarith

/-- C3 (amended): for graphs in which every edge destination is an
outer-mapping key — as `add_edge` guarantees — if no negative-weight cycle
is reachable from the source (a negative cycle elsewhere is allowed),
`bellman_ford` returns `Some` of a result mapping, never the sentinel. -/
theorem no_spurious_failure {g : Graph} {s : Nat} (hwf : WF g)
    (hclosed : ClosedGraph g) (hnc : NoNegCycle g s) :
    ∃ m, bellman_ford g s = some m := by
  have hcn : ClosedNonneg g s := closedNonneg_of_noNegCycle hnc
  cases hrp : relaxPasses g (g.length - 1) (mapInsert [] s none) with
  | none => exact absurd hrp (relaxPasses_ne_none hwf hcn (inv_init g s))
  | some m =>
    refine ⟨m, ?_⟩
    have hcp : checkPass m g = false := by
      rw [checkPass, List.any_eq_false]
      intro pe hpe
      rw [Bool.not_eq_true, List.any_eq_false]
      intro qe hqe
      rw [Bool.not_eq_true]
      obtain ⟨u, es⟩ := pe
      obtain ⟨v, w⟩ := qe
      cases hru : mapGet m u with
      | none => exact checkEdge_none_left hru
      | some ru =>
        cases hrv : mapGet m v with
        | none =>
          cases hru2 : ru with
          | none => simp [checkEdge, hru, hrv, hru2]
          | some p =>
            obtain ⟨q, du⟩ := p
            simp [checkEdge, hru, hrv]
        | some rv =>
          exact checkEdge_false_of_le hru hrv
            (closed_edge_le hwf hclosed hcn hrp hpe hqe hru hrv)
    simp only [bellman_ford, hrp, hcp]
    simp

/-- Witness for the amended C3 on the single-edge closed graph. -/
theorem no_spurious_failure_witness :
    ∃ m, bellman_ford [(0, [(1, 2)]), (1, [])] 0 = some m :=
  no_spurious_failure (by decide) (by decide)
    (@noNegCycle_of_rel [(0, [(1, 2)]), (1, [])] (fun a b => a < b)
      (fun hab hbc => lt_trans hab hbc) (fun a => lt_irrefl a) (by decide) 0)

/-- Counterexample to C3 as stated: this graph has no cycle at all (every
stored edge strictly decreases the vertex number), so no negative cycle is
reachable from source 3, yet `bellman_ford` returns the negative-cycle
sentinel `none`: vertex 1 occurs only as a destination, so the pass count
`graph.len() - 1 = 1` is one short and the detection pass still finds the
improvable edge `2 -> 1`. -/
theorem no_cycle_but_sentinel :
    NoNegCycle [(2, [(1, 1)]), (3, [(1, 10), (2, 1)])] 3 ∧
    WF [(2, [(1, 1)]), (3, [(1, 10), (2, 1)])] ∧
    bellman_ford [(2, [(1, 1)]), (3, [(1, 10), (2, 1)])] 3 = none :=
  ⟨@noNegCycle_of_rel [(2, [(1, 1)]), (3, [(1, 10), (2, 1)])]
      (fun a b => b < a) (fun hab hbc => lt_trans hbc hab)
      (fun a => lt_irrefl a) (by decide) 3,
    by decide, by decide⟩

/-- C4 (amended): for graphs in which every edge destination is an
outer-mapping key — as `add_edge` guarantees — whenever `bellman_ford`
returns `Some map`, the key set of `map` is exactly the set of nodes
reachable from the source (the source included). -/
theorem keys_eq_reachable {g : Graph} {s : Nat} {m : Ans} (hwf : WF g)
    (hclosed : ClosedGraph g) (hbf : bellman_ford g s = some m) (v : Nat) :
    (∃ r, mapGet m v = some r) ↔ Reachable g s v := by
  obtain ⟨hrp, hcp⟩ := bf_some_inv hbf
  have hInv : Inv g s m := (relaxPasses_step hwf (inv_init g s) hrp).1
  constructor
  · rintro ⟨r, hr⟩
    obtain ⟨l, hl, _⟩ := inv_walk hInv hr
    exact ⟨l, hl⟩
  · intro hreach
    by_cases hvs : v = s
    · subst hvs
      exact ⟨none, hInv.1⟩
    · obtain ⟨lw, hlw⟩ := hreach
      obtain ⟨P, hP, hPnd⟩ := walk_to_simple lw.length lw s v (le_refl _) hlw
      obtain ⟨P2, rfl⟩ := getLast?_concat_inv hP.2.2
      have hP2ne : P2 ≠ [] := by
        intro hh
        subst hh
        have : v = s := by
          have hPh := hP.2.1
          simp only [List.nil_append, List.head?] at hPh
          exact (Option.some.injEq .. ▸ hPh :)
        exact hvs this
      obtain ⟨y, hy⟩ : ∃ y, P2.getLast? = some y :=
        ⟨P2.getLast hP2ne, List.getLast?_eq_getLast P2 hP2ne⟩
      obtain ⟨_, w, hew, _⟩ := walk_snoc_inv hP.1 hy
      have hvkey : ∃ es2, mapGet g v = some es2 := by
        obtain ⟨es, hges, hesv⟩ := edgeWeight_inv hew
        exact Option.isSome_iff_exists.mp
          (hclosed (y, es) (mapGet_mem hges) (v, w) (mapGet_mem hesv))
      exact reached_recorded hwf hrp ⟨P2 ++ [v], hP⟩ hvkey

/-- Witness for the amended C4 on the single-edge closed graph. -/
theorem keys_eq_reachable_witness :
    (∃ r, mapGet ([(0, none), (1, some (0, 2))] : Ans) 1 = some r) ↔
      Reachable [(0, [(1, 2)]), (1, [])] 0 1 :=
  keys_eq_reachable (by decide) (by decide) (by decide) 1

/-- Counterexample to C4 as stated: vertex 1 appears only as a destination
(never as an outer key), so the pass count is `1 - 1 = 0`; node 1 is
reachable from source 0 yet absent from the returned mapping. -/
theorem reachable_but_not_recorded :
    bellman_ford [(0, [(1, 5)])] 0 = some [(0, none)] ∧
    WalkFromTo [(0, [(1, 5)])] 0 1 [0, 1] ∧
    mapGet [(0, (none : Option (Nat × Int)))] 1 = none := by
  decide

end BF
